import Mathlib

/-!
# Verification of the evcont eigenvector-continuation core

This file shallowly embeds the numerical core of the `evcont` repository:

* `approximate_ground_state` / `approximate_multistate`
  (`src/evcont/ab_initio_eigenvector_continuation.py`),
* `get_energy_with_grad` and the Löwdin-gradient `Zji` construction
  (`src/EVCont/ab_initio_gradients_loewdin_np.py`),
* the three training-set append operations
  (`src/EVCont/DMRG_EVCont.py`).

Modelling conventions:

* Machine floats become exact rationals (`ℚ`); the numerical claims under
  scrutiny are algebraic identities between contraction/selection paths, which
  are exact statements.
* All arrays in the modelled code paths are real (`float64`, created via
  `np.ones`/`np.zeros`), so on this data `np.conj` is the identity; we keep an
  explicit `npconj` marker wherever the source calls `.conj()`.
* External collaborators (scipy's `eigh`/`eig`, the DMRG solver, pyscf
  integral routines, file IO and MPI broadcast) are out of scope per the spec
  ("arrays in / arrays out"); they appear as explicit function parameters.
  scipy's generalized `eigh` only ever reads the lower triangles of its two
  matrix arguments (default `lower=True`); this is modelled by passing the
  solver the lower-triangle symmetrization of `H` and `S` in the Hermitian
  branch.
* The four storage layouts of the two-body t-RDM, which the Python code
  dispatches on via `len(two_RDM.shape)`, are modelled as a tagged union (as
  the spec's design notes §9 prescribe), together with a `badRank` variant
  carrying any unrecognized array rank so that the `assert False` branch is
  representable.
-/

/-- `np.conj` on the real (`float64`) arrays used throughout this code path is
the identity; we keep it explicit wherever the source calls `.conj()`. -/
def npconj (x : ℚ) : ℚ := x

/-- A complex scalar as produced by `scipy.linalg.eig`: (real part, imaginary
part). -/
abbrev Cq : Type := ℚ × ℚ

/-- One eigenpair `(vals[k], vecs[:, k])` returned by the external generalized
eigensolver. Vectors are stored by column, matching `vecs[:, k]`. -/
structure EigPair (N : ℕ) where
  val : Cq
  vec : Fin N → Cq

instance {N : ℕ} : DecidableEq (EigPair N) := fun p q =>
  decidable_of_iff (p.val = q.val ∧ p.vec = q.vec) (by cases p; cases q; simp)

/-- The external generalized eigensolver (scipy's `eigh`/`eig`): given the
Hermitian flag and the matrices `H`, `S`, it returns a list of eigenpairs in
the order of the `vals` array. Both scipy routines are external collaborators;
the embedding is parametric in this function. -/
abbrev Solver (N : ℕ) : Type :=
  Bool → (Fin N → Fin N → ℚ) → (Fin N → Fin N → ℚ) → List (EigPair N)

/-- Index into the `np.tril_indices(N)` lower-triangular enumeration of
training pairs `(a, b)` with `b ≤ a`: the packed axis of the 5-index /
2-index two-body t-RDM layouts. -/
abbrev TriIdx (N : ℕ) : Type := {p : Fin N × Fin N // p.2 ≤ p.1}

/-- The flattened composite orbital index `i * Norb + j` by which the pairs of
orbital-index pairs are ordered in the electron-exchange-symmetry packing. -/
def cIdx {d : ℕ} (p : Fin d × Fin d) : ℕ := p.1.val * d + p.2.val

/-- Index into the lower-triangular enumeration of pairs of composite orbital
indices `((i,j),(k,l))` with `cIdx (k,l) ≤ cIdx (i,j)`: the packed axis of the
electron-exchange-symmetric two-body layouts. -/
abbrev ExIdx (d : ℕ) : Type :=
  {q : (Fin d × Fin d) × (Fin d × Fin d) // cIdx q.2 ≤ cIdx q.1}

/-- Modelled from the spec: `compress_electron_exchange_symmetry` lives in
`evcont/electron_integral_utils.py`, which is not among the given sources.
Per the spec (§4.2, §6), it converts the two-electron integral tensor to "a
matching compressed vector form" over the triangular pairs of composite
orbital indices, "with a diagonal-element half-weight (`diag_multiplier=0.5`)
... compensating for the combinatorial double-count inherent to packing
symmetric index pairs". -/
def compress_electron_exchange_symmetry {d : ℕ}
    (h2 : Fin d → Fin d → Fin d → Fin d → ℚ) (diag_multiplier : ℚ) :
    ExIdx d → ℚ :=
  fun q =>
    (if q.val.1 = q.val.2 then diag_multiplier else 1) *
      h2 q.val.1.1 q.val.1.2 q.val.2.1 q.val.2.2

/-- Dot product of two vectors over the packed exchange-symmetry index, as in
`two_RDM.dot(h2_compressed)`. -/
def packedDot {d : ℕ} (v w : ExIdx d → ℚ) : ℚ := ∑ q : ExIdx d, v q * w q

/-- The four recognized storage layouts of the two-body t-RDM, dispatched on
array rank in the source (`len(two_RDM.shape)`), plus the unrecognized-rank
case feeding the `assert False` branch. The spec's design notes (§9) prescribe
exactly this tagged-union reading of the rank dispatch. -/
inductive TwoRDMArr (N d : ℕ) where
  /-- rank 6: `(Ntrn, Ntrn, Norb, Norb, Norb, Norb)`, no symmetries. -/
  | full (t : Fin N → Fin N → Fin d → Fin d → Fin d → Fin d → ℚ)
  /-- rank 5: data symmetry only, first axis over `np.tril_indices(Ntrn)`. -/
  | dataPacked (t : TriIdx N → Fin d → Fin d → Fin d → Fin d → ℚ)
  /-- rank 3: electron exchange symmetry only, last axis packed. -/
  | exchangePacked (t : Fin N → Fin N → ExIdx d → ℚ)
  /-- rank 2: both compressions combined. -/
  | bothPacked (t : TriIdx N → ExIdx d → ℚ)
  /-- an array of any other rank `r ∉ {6, 5, 3, 2}`. -/
  | badRank (r : ℕ) (hr : ¬(r = 6 ∨ r = 5 ∨ r = 3 ∨ r = 2))

/-- `len(two_RDM.shape)`. -/
def TwoRDMArr.rank {N d : ℕ} : TwoRDMArr N d → ℕ
  | .full _ => 6
  | .dataPacked _ => 5
  | .exchangePacked _ => 3
  | .bothPacked _ => 2
  | .badRank r _ => r

/-- `np.tensordot(one_RDM, h1, axes=2)`: the one-electron part of the
subspace Hamiltonian. -/
def oneBodyH {N d : ℕ} (one_RDM : Fin N → Fin N → Fin d → Fin d → ℚ)
    (h1 : Fin d → Fin d → ℚ) : Fin N → Fin N → ℚ :=
  fun a b => ∑ k, ∑ l, one_RDM a b k l * h1 k l

/-- `np.tensordot(two_RDM, h2, axes=4)` for the rank-6 layout. -/
def twoBodyFull {N d : ℕ} (t : Fin N → Fin N → Fin d → Fin d → Fin d → Fin d → ℚ)
    (h2 : Fin d → Fin d → Fin d → Fin d → ℚ) : Fin N → Fin N → ℚ :=
  fun a b => ∑ i, ∑ j, ∑ k, ∑ l, t a b i j k l * h2 i j k l

/-- `H[np.tril_indices(H.shape[0])] += extra`: add a packed vector onto the
lower-triangular entries of `H`. -/
def trilAdd {N : ℕ} (base : Fin N → Fin N → ℚ) (extra : TriIdx N → ℚ) :
    Fin N → Fin N → ℚ :=
  fun a b => if h : b ≤ a then base a b + extra ⟨(a, b), h⟩ else base a b

/-- `H[np.triu_indices(n)] = H.T.conj()[np.triu_indices(n)]`: mirror the lower
triangle (conjugated) onto the upper triangle, diagonal included. -/
def triuMirror {N : ℕ} (M : Fin N → Fin N → ℚ) : Fin N → Fin N → ℚ :=
  fun i j => if i ≤ j then npconj (M j i) else M i j

/-- Error outcomes of the eigenproblem routines: a failed `assert`, or the
`ValueError` that `np.argmin` raises on an empty sequence. -/
inductive EvErr where
  | assertFail
  | valueError
deriving DecidableEq

/-- The effective-Hamiltonian construction shared by `approximate_ground_state`
and `approximate_multistate` (lines 35-71 and 117-153 of
`ab_initio_eigenvector_continuation.py`): one-electron `tensordot` plus the
rank-dispatched two-electron contribution, with the data-symmetry layouts
mirroring the lower triangle onto the upper one when `hermitian` is false. -/
def buildH {N d : ℕ} (h1 : Fin d → Fin d → ℚ)
    (h2 : Fin d → Fin d → Fin d → Fin d → ℚ)
    (one_RDM : Fin N → Fin N → Fin d → Fin d → ℚ)
    (two_RDM : TwoRDMArr N d) (hermitian : Bool) :
    Except EvErr (Fin N → Fin N → ℚ) :=
  match two_RDM with
  | .full t =>
      .ok fun a b => oneBodyH one_RDM h1 a b + (1 / 2) * twoBodyFull t h2 a b
  | .dataPacked t =>
      let H := trilAdd (oneBodyH one_RDM h1)
        (fun p => (1 / 2) * ∑ i, ∑ j, ∑ k, ∑ l, t p i j k l * h2 i j k l)
      .ok (if hermitian then H else triuMirror H)
  | .exchangePacked t =>
      .ok fun a b => oneBodyH one_RDM h1 a b +
        packedDot (t a b) (compress_electron_exchange_symmetry h2 (1 / 2))
  | .bothPacked t =>
      let H := trilAdd (oneBodyH one_RDM h1)
        (fun p => packedDot (t p) (compress_electron_exchange_symmetry h2 (1 / 2)))
      .ok (if hermitian then H else triuMirror H)
  | .badRank _ _ => .error .assertFail

/-- Lower-triangle symmetrization: the matrix that scipy's generalized `eigh`
(with its default `lower=True`) actually diagonalizes, given a possibly
asymmetric input buffer. -/
def symmetrizeLower {N : ℕ} (M : Fin N → Fin N → ℚ) : Fin N → Fin N → ℚ :=
  fun i j => if j ≤ i then M i j else npconj (M j i)

/-- `eigh(H, S)` or `eig(H, S)` depending on the `hermitian` flag; the `eigh`
branch reads only the lower triangles of `H` and `S`. -/
def solveGen {N : ℕ} (solve : Solver N) (hermitian : Bool)
    (H S : Fin N → Fin N → ℚ) : List (EigPair N) :=
  if hermitian then solve true (symmetrizeLower H) (symmetrizeLower S)
  else solve false H S

/-- `valid_vals = abs(vals.imag) < 1.0e-5` followed by `vals[valid_vals]` /
`vecs[:, valid_vals]`: keep those eigenpairs whose eigenvalue has imaginary
part of magnitude strictly below `1e-5` (the float literal `1.0e-5` is the
exact rational `mkRat 1 100000`). -/
def validPairs {N : ℕ} (pairs : List (EigPair N)) : List (EigPair N) :=
  pairs.filter fun p => decide (|p.val.2| < mkRat 1 100000)

/-- `np.argmin` over the real parts, returning the eigenpair at the first
index achieving the minimum (`none` on an empty list, where `np.argmin`
raises `ValueError`). -/
def selectMin {N : ℕ} : List (EigPair N) → Option (EigPair N)
  | [] => none
  | p :: ps => some (ps.foldl (fun acc q => if q.val.1 < acc.val.1 then q else acc) p)

/-- Recursive characterization of the first minimum of a list of eigenpairs
(first occurrence wins on ties, as with `np.argmin`); proved equal to
`selectMin`. -/
def firstMin {N : ℕ} : List (EigPair N) → Option (EigPair N)
  | [] => none
  | x :: xs =>
      some (match firstMin xs with
        | none => x
        | some m => if x.val.1 ≤ m.val.1 then x else m)

/-- The post-solve phase of `approximate_ground_state` (lines 80-90): filter
by imaginary part, `np.argmin` over the surviving real parts (raising
`ValueError` on an empty survivor list), and return the selected real
eigenvalue and real eigenvector. -/
def ground_state_post {N : ℕ} (solve : Solver N) (S : Fin N → Fin N → ℚ)
    (hermitian : Bool) (H : Fin N → Fin N → ℚ) :
    Except EvErr (ℚ × (Fin N → ℚ)) :=
  match selectMin (validPairs (solveGen solve hermitian H S)) with
  | none => .error .valueError
  | some p => .ok (p.val.1, fun i => (p.vec i).1)

/-- `approximate_ground_state` (ab_initio_eigenvector_continuation.py, lines
12-90), parametric in the external scipy eigensolver: build the subspace
Hamiltonian, solve the generalized eigenproblem, discard eigenpairs with
`|Im λ| ≥ 1e-5`, and return the real part of the smallest surviving eigenvalue
together with the real part of its eigenvector. -/
def approximate_ground_state {N d : ℕ} (solve : Solver N)
    (h1 : Fin d → Fin d → ℚ) (h2 : Fin d → Fin d → Fin d → Fin d → ℚ)
    (one_RDM : Fin N → Fin N → Fin d → Fin d → ℚ) (two_RDM : TwoRDMArr N d)
    (S : Fin N → Fin N → ℚ) (hermitian : Bool) :
    Except EvErr (ℚ × (Fin N → ℚ)) :=
  match buildH h1 h2 one_RDM two_RDM hermitian with
  | .error e => .error e
  | .ok H => ground_state_post solve S hermitian H

/-- The `np.argsort` ordering on eigenpairs: by real part of the eigenvalue. -/
def byRe {N : ℕ} : EigPair N → EigPair N → Prop :=
  fun p q => p.val.1 ≤ q.val.1

instance {N : ℕ} : DecidableRel (byRe (N := N)) :=
  fun p q => inferInstanceAs (Decidable (p.val.1 ≤ q.val.1))

instance {N : ℕ} : IsTotal (EigPair N) byRe :=
  ⟨fun p q => le_total p.val.1 q.val.1⟩

instance {N : ℕ} : IsTrans (EigPair N) byRe :=
  ⟨fun _ _ _ h h' => le_trans h h'⟩

/-- The post-solve phase of `approximate_multistate` (lines 162-175): filter
by imaginary part, assert that at least `nroots` eigenpairs survive, sort the
survivors by real part (`np.argsort`) and return the first `nroots` real
eigenvalues with their real eigenvectors as rows.

`np.argsort`'s default quicksort is documented as NOT stable, so the order of
eigenpairs whose real parts are exactly equal is unspecified by the source.
This definition fixes one legal tie-break (the stable order, ties kept in
input order); `multistate_post_tieRev` below fixes the opposite legal
tie-break (ties in reversed input order). A property of the program is only
established when it holds under any legal tie-break: properties of the
returned energies are invariant under the tie-break (equal keys sort to equal
key lists), while properties of the returned eigenvector rows at tied
eigenvalues are not, and must be checked against both readings. -/
def multistate_post {N : ℕ} (solve : Solver N) (S : Fin N → Fin N → ℚ)
    (nroots : ℕ) (hermitian : Bool) (H : Fin N → Fin N → ℚ) :
    Except EvErr (List ℚ × List (Fin N → ℚ)) :=
  if nroots ≤ (validPairs (solveGen solve hermitian H S)).length then
    .ok
      (((List.insertionSort byRe (validPairs (solveGen solve hermitian H S))).take
          nroots).map (fun p => p.val.1),
        ((List.insertionSort byRe (validPairs (solveGen solve hermitian H S))).take
          nroots).map (fun p i => (p.vec i).1))
  else .error .assertFail

/-- `approximate_multistate` (ab_initio_eigenvector_continuation.py, lines
93-175): same Hamiltonian construction and filtering; asserts that at least
`nroots` eigenpairs survive, then returns the `nroots` smallest surviving real
parts (via `np.argsort`) with the real parts of their eigenvectors as rows. -/
def approximate_multistate {N d : ℕ} (solve : Solver N)
    (h1 : Fin d → Fin d → ℚ) (h2 : Fin d → Fin d → Fin d → Fin d → ℚ)
    (one_RDM : Fin N → Fin N → Fin d → Fin d → ℚ) (two_RDM : TwoRDMArr N d)
    (S : Fin N → Fin N → ℚ) (nroots : ℕ) (hermitian : Bool) :
    Except EvErr (List ℚ × List (Fin N → ℚ)) :=
  match buildH h1 h2 one_RDM two_RDM hermitian with
  | .error e => .error e
  | .ok H => multistate_post solve S nroots hermitian H

/-- Strict comparison by real part: inserting with it reverses the input
order of eigenpairs whose real parts are exactly equal, realising the other
legal tie-break of `np.argsort`'s non-stable default sort. -/
def byReStrict {N : ℕ} : EigPair N → EigPair N → Prop :=
  fun p q => p.val.1 < q.val.1

instance {N : ℕ} : DecidableRel (byReStrict (N := N)) :=
  fun p q => inferInstanceAs (Decidable (p.val.1 < q.val.1))

/-- The last occurrence of the minimal real part in a list of eigenpairs
(later occurrence wins on ties); this is the element that `argsort[0]` picks
under the reversed tie-break, as `firstMin` is under the stable one. -/
def lastMin {N : ℕ} : List (EigPair N) → Option (EigPair N)
  | [] => none
  | x :: xs =>
      some (match lastMin xs with
        | none => x
        | some m => if x.val.1 < m.val.1 then x else m)

/-- The post-solve phase of `approximate_multistate` under the other legal
tie-break of `np.argsort`'s non-stable default sort: identical to
`multistate_post` except that surviving eigenpairs with exactly equal real
parts end up in reversed input order. Both definitions are faithful readings
of lines 162-175; the source fixes neither. -/
def multistate_post_tieRev {N : ℕ} (solve : Solver N) (S : Fin N → Fin N → ℚ)
    (nroots : ℕ) (hermitian : Bool) (H : Fin N → Fin N → ℚ) :
    Except EvErr (List ℚ × List (Fin N → ℚ)) :=
  if nroots ≤ (validPairs (solveGen solve hermitian H S)).length then
    .ok
      (((List.insertionSort byReStrict (validPairs (solveGen solve hermitian H S))).take
          nroots).map (fun p => p.val.1),
        ((List.insertionSort byReStrict (validPairs (solveGen solve hermitian H S))).take
          nroots).map (fun p i => (p.vec i).1))
  else .error .assertFail

/-- `approximate_multistate` under the reversed-tie reading of `np.argsort`:
same Hamiltonian construction, filtering and assert as
`approximate_multistate`, differing only in the unspecified tie order. -/
def approximate_multistate_tieRev {N d : ℕ} (solve : Solver N)
    (h1 : Fin d → Fin d → ℚ) (h2 : Fin d → Fin d → Fin d → Fin d → ℚ)
    (one_RDM : Fin N → Fin N → Fin d → Fin d → ℚ) (two_RDM : TwoRDMArr N d)
    (S : Fin N → Fin N → ℚ) (nroots : ℕ) (hermitian : Bool) :
    Except EvErr (List ℚ × List (Fin N → ℚ)) :=
  match buildH h1 h2 one_RDM two_RDM hermitian with
  | .error e => .error e
  | .ok H => multistate_post_tieRev solve S nroots hermitian H

/-! ## Löwdin-gradient engine (`ab_initio_gradients_loewdin_np.py`) -/

/-- `get_energy_with_grad` (ab_initio_gradients_loewdin_np.py, lines 212-244),
parametric in the externally computed pyscf quantities: the integrals `h1`,
`h2`, the integral derivatives `h1_jac = get_one_el_grad(...)` and
`h2_jac = get_two_el_grad(...)` (orbital indices first, then atom index and
Cartesian component), the nuclear repulsion energy `energy_nuc` and its
gradient `grad_nuc`, and the external eigensolver.

The predicted densities follow the source's einsum subscripts exactly: the
two-body prediction is `np.einsum("i,ijklmn,j->kl", vec, two_RDM, vec)`,
whose output subscript `kl` sums out the last two orbital axes `m, n`; the
resulting rank-2 array is then broadcast (via
`np.expand_dims(..., (-1, -2))`) against axes 2 and 3 of `h2_jac`, and axes
0-3 of the product are summed. -/
def get_energy_with_grad {N d A : ℕ} (solve : Solver N)
    (h1 : Fin d → Fin d → ℚ) (h2 : Fin d → Fin d → Fin d → Fin d → ℚ)
    (one_RDM : Fin N → Fin N → Fin d → Fin d → ℚ)
    (two_RDM : Fin N → Fin N → Fin d → Fin d → Fin d → Fin d → ℚ)
    (S : Fin N → Fin N → ℚ) (hermitian : Bool)
    (h1_jac : Fin d → Fin d → Fin A → Fin 3 → ℚ)
    (h2_jac : Fin d → Fin d → Fin d → Fin d → Fin A → Fin 3 → ℚ)
    (energy_nuc : ℚ) (grad_nuc : Fin A → Fin 3 → ℚ) :
    Except EvErr (ℚ × (Fin A → Fin 3 → ℚ)) :=
  match approximate_ground_state solve h1 h2 one_RDM (.full two_RDM) S hermitian with
  | .error e => .error e
  | .ok (en, vec) =>
      let one_rdm_predicted : Fin d → Fin d → ℚ := fun k l =>
        ∑ i, ∑ j, vec i * one_RDM i j k l * vec j
      let two_rdm_predicted : Fin d → Fin d → ℚ := fun k l =>
        ∑ i, ∑ j, ∑ m, ∑ n, vec i * two_RDM i j k l m n * vec j
      let jac_H : Fin A → Fin 3 → ℚ := fun a c =>
        (∑ k, ∑ l, one_rdm_predicted k l * h1_jac k l a c) +
          (1 / 2) * ∑ p, ∑ q, ∑ k, ∑ l, two_rdm_predicted k l * h2_jac p q k l a c
      .ok (en + energy_nuc, fun a c => jac_H a c + grad_nuc a c)

/-- The electronic gradient as the spec's words state it (refinement
reference, written from the spec, not from the source): the predicted one-body
density `D1[k,l] = Σ_ij v_i one_RDM[i,j,k,l] v_j` and two-body density
`D2[k,l,m,n] = Σ_ij v_i two_RDM[i,j,k,l,m,n] v_j` contracted against the
integral derivatives, `Σ_kl D1[k,l] h1_jac[k,l] +
0.5 Σ_klmn D2[k,l,m,n] h2_jac[k,l,m,n]` (Hellmann-Feynman term). -/
def hellmann_feynman_grad {N d A : ℕ}
    (one_RDM : Fin N → Fin N → Fin d → Fin d → ℚ)
    (two_RDM : Fin N → Fin N → Fin d → Fin d → Fin d → Fin d → ℚ)
    (vec : Fin N → ℚ)
    (h1_jac : Fin d → Fin d → Fin A → Fin 3 → ℚ)
    (h2_jac : Fin d → Fin d → Fin d → Fin d → Fin A → Fin 3 → ℚ) :
    Fin A → Fin 3 → ℚ :=
  fun a c =>
    (∑ k, ∑ l, (∑ i, ∑ j, vec i * one_RDM i j k l * vec j) * h1_jac k l a c) +
      (1 / 2) * ∑ k, ∑ l, ∑ m, ∑ n,
        (∑ i, ∑ j, vec i * two_RDM i j k l m n * vec j) * h2_jac k l m n a c

/-- `np.round`'s half-to-even rounding of a scalar to the nearest integer. -/
def roundHalfEven (x : ℚ) : ℤ :=
  if x - ⌊x⌋ < 1 / 2 then ⌊x⌋
  else if 1 / 2 < x - ⌊x⌋ then ⌊x⌋ + 1
  else if 2 ∣ ⌊x⌋ then ⌊x⌋ else ⌊x⌋ + 1

/-- `np.round(vals, decimals=5)` on one entry of the eigenvalue array. -/
def roundToDecimals5 (x : ℚ) : ℚ := (roundHalfEven (x * 100000) : ℚ) / 100000

/-- Membership of the index pair `(i, j)` in the `degenerate_subspace` boolean
mask of `loewdin_trafo_grad` (lines 28-54): the mask is set on `np.ix_(ids,
ids)` for each group `ids` of eigenvalue indices sharing the same value of
`np.round(vals, decimals=5)`, so `(i, j)` is marked exactly when the rounded
eigenvalues at `i` and `j` coincide. -/
def degenerateSubspace {n : ℕ} (vals : Fin n → ℚ) (i j : Fin n) : Bool :=
  roundToDecimals5 (vals i) = roundToDecimals5 (vals j)

/-- The first-order-perturbation coupling array `Zji` of `loewdin_trafo_grad`
(lines 62-65): initialized to zero, and assigned
`Vji[:, :, i, j] / (vals[j] - vals[i])` only at the index pairs outside the
degenerate subspace (`Zji[:, :, ~degenerate_subspace] = Vji[...] / ...`);
inside the degenerate subspace it is left exactly zero. The leading two axes
`a, b` are the AO axes of the derivative. -/
def loewdinZji {n : ℕ} (vals : Fin n → ℚ) (Vji : Fin n → Fin n → Fin n → Fin n → ℚ)
    (a b i j : Fin n) : ℚ :=
  if degenerateSubspace vals i j then 0
  else Vji a b i j / (vals j - vals i)

/-! ## Training-set append operations (`DMRG_EVCont.py`)

All three append functions share the same array-extension logic: allocate
`(len(mols))²`-block arrays, copy the previous arrays into the leading block,
then for every training index `i` write the externally computed overlap and
transition RDMs into row `-1` and their conjugates into column `-1` (at
`i = len(mols)-1` the row write happens first and the column write second, so
the final diagonal entry is the conjugated value). They differ only in which
external DMRG computation produces the per-index values `ovlpOf i`,
`rdm1Of i`, `rdm2Of i`; those computations (DMRG solves, MPS rotations, file
IO, MPI broadcast) are external collaborators and enter as parameters. -/

/-- The extension of the overlap matrix common to the three append functions:
`overlap_new = np.ones((n, n))`, `overlap_new[:-1, :-1] = overlap`, then
`overlap_new[-1, i] = ovlp` and `overlap_new[i, -1] = ovlp.conj()` for each
`i`. -/
def appendOverlap {m : ℕ} (overlap : Fin m → Fin m → ℚ)
    (ovlpOf : Fin (m + 1) → ℚ) : Fin (m + 1) → Fin (m + 1) → ℚ :=
  fun i j =>
    if hj : j = Fin.last m then npconj (ovlpOf i)
    else if hi : i = Fin.last m then ovlpOf j
    else overlap (i.castPred hi) (j.castPred hj)

/-- The extension of the one-body t-RDM array: `one_rdm_new[-1, i] = rdm1`,
`one_rdm_new[i, -1] = rdm1.conj()` — the conjugate is stored WITHOUT a
transpose of the orbital axes. -/
def appendOneRdm {m d : ℕ} (one_rdm : Fin m → Fin m → Fin d → Fin d → ℚ)
    (rdm1Of : Fin (m + 1) → Fin d → Fin d → ℚ) :
    Fin (m + 1) → Fin (m + 1) → Fin d → Fin d → ℚ :=
  fun i j k l =>
    if hj : j = Fin.last m then npconj (rdm1Of i k l)
    else if hi : i = Fin.last m then rdm1Of j k l
    else one_rdm (i.castPred hi) (j.castPred hj) k l

/-- The extension of the two-body t-RDM array: `two_rdm_new[-1, i] = rdm2`,
`two_rdm_new[i, -1] = rdm2.conj()` (again with no transpose of the orbital
axes). -/
def appendTwoRdm {m d : ℕ}
    (two_rdm : Fin m → Fin m → Fin d → Fin d → Fin d → Fin d → ℚ)
    (rdm2Of : Fin (m + 1) → Fin d → Fin d → Fin d → Fin d → ℚ) :
    Fin (m + 1) → Fin (m + 1) → Fin d → Fin d → Fin d → Fin d → ℚ :=
  fun i j k l k' l' =>
    if hj : j = Fin.last m then npconj (rdm2Of i k l k' l')
    else if hi : i = Fin.last m then rdm2Of j k l k' l'
    else two_rdm (i.castPred hi) (j.castPred hj) k l k' l'

/-- `append_to_rdms_rerun` (DMRG_EVCont.py, lines 32-119): the per-index
values come from re-solving each training wavefunction in the rotated basis
and transforming the resulting t-RDMs through `transform_integrals`; the
array bookkeeping is `appendOverlap` / `appendOneRdm` / `appendTwoRdm`. -/
def append_to_rdms_rerun {m d : ℕ} (overlap : Fin m → Fin m → ℚ)
    (one_rdm : Fin m → Fin m → Fin d → Fin d → ℚ)
    (two_rdm : Fin m → Fin m → Fin d → Fin d → Fin d → Fin d → ℚ)
    (ovlpOf : Fin (m + 1) → ℚ)
    (rdm1Of : Fin (m + 1) → Fin d → Fin d → ℚ)
    (rdm2Of : Fin (m + 1) → Fin d → Fin d → Fin d → Fin d → ℚ) :
    (Fin (m + 1) → Fin (m + 1) → ℚ) ×
      (Fin (m + 1) → Fin (m + 1) → Fin d → Fin d → ℚ) ×
      (Fin (m + 1) → Fin (m + 1) → Fin d → Fin d → Fin d → Fin d → ℚ) :=
  (appendOverlap overlap ovlpOf, appendOneRdm one_rdm rdm1Of,
    appendTwoRdm two_rdm rdm2Of)

/-- `append_to_rdms_orbital_rotation` (DMRG_EVCont.py, lines 122-245): the
per-index values come from rotating the stored MPS via
`converge_orbital_rotation_mps`; the rank-0 array bookkeeping (then broadcast)
is identical to `append_to_rdms_rerun`. -/
def append_to_rdms_orbital_rotation {m d : ℕ} (overlap : Fin m → Fin m → ℚ)
    (one_rdm : Fin m → Fin m → Fin d → Fin d → ℚ)
    (two_rdm : Fin m → Fin m → Fin d → Fin d → Fin d → Fin d → ℚ)
    (ovlpOf : Fin (m + 1) → ℚ)
    (rdm1Of : Fin (m + 1) → Fin d → Fin d → ℚ)
    (rdm2Of : Fin (m + 1) → Fin d → Fin d → Fin d → Fin d → ℚ) :
    (Fin (m + 1) → Fin (m + 1) → ℚ) ×
      (Fin (m + 1) → Fin (m + 1) → Fin d → Fin d → ℚ) ×
      (Fin (m + 1) → Fin (m + 1) → Fin d → Fin d → Fin d → Fin d → ℚ) :=
  (appendOverlap overlap ovlpOf, appendOneRdm one_rdm rdm1Of,
    appendTwoRdm two_rdm rdm2Of)

/-- `append_to_rdms_OAO_basis` (DMRG_EVCont.py, lines 248-288): the per-index
values are the raw MPS expectation values in the shared OAO basis (no rotation
and no `transform_integrals`); the array bookkeeping is again identical. -/
def append_to_rdms_OAO_basis {m d : ℕ} (overlap : Fin m → Fin m → ℚ)
    (one_rdm : Fin m → Fin m → Fin d → Fin d → ℚ)
    (two_rdm : Fin m → Fin m → Fin d → Fin d → Fin d → Fin d → ℚ)
    (ovlpOf : Fin (m + 1) → ℚ)
    (rdm1Of : Fin (m + 1) → Fin d → Fin d → ℚ)
    (rdm2Of : Fin (m + 1) → Fin d → Fin d → Fin d → Fin d → ℚ) :
    (Fin (m + 1) → Fin (m + 1) → ℚ) ×
      (Fin (m + 1) → Fin (m + 1) → Fin d → Fin d → ℚ) ×
      (Fin (m + 1) → Fin (m + 1) → Fin d → Fin d → Fin d → Fin d → ℚ) :=
  (appendOverlap overlap ovlpOf, appendOneRdm one_rdm rdm1Of,
    appendTwoRdm two_rdm rdm2Of)

/-! ## Concrete fixtures for witness instantiations -/

/-- A concrete external eigensolver on a 1-dimensional training space
returning the single real eigenpair `(0, [1])`. -/
def exSolver1 : Solver 1 := fun _ _ _ => [⟨(0, 0), fun _ => (1, 0)⟩]

/-- A concrete external eigensolver returning one eigenvalue with imaginary
part `1` (so no eigenpair survives the `1e-5` filter). -/
def exSolverImag : Solver 1 := fun _ _ _ => [⟨(0, 1), fun _ => (1, 0)⟩]

/-- A concrete external eigensolver returning two real eigenpairs with
exactly equal eigenvalues but different eigenvectors `[1]` and `[2]` — the
degenerate situation in which `np.argsort`'s unspecified tie order matters. -/
def exSolverTie : Solver 1 :=
  fun _ _ _ => [⟨(0, 0), fun _ => (1, 0)⟩, ⟨(0, 0), fun _ => (2, 0)⟩]

/-- The subspace Hamiltonian `buildH` produces from all-zero integrals and
t-RDMs on a 1-dimensional training space (the `.ok` payload of `buildH` at
the zero fixtures, used to instantiate theorems quantified over `H`). -/
def exH1 : Fin 1 → Fin 1 → ℚ := fun a b =>
  oneBodyH (d := 1) (fun _ _ _ _ => 0) (fun _ _ => 0) a b +
    (1 / 2) * twoBodyFull (d := 1) (fun _ _ _ _ _ _ => 0) (fun _ _ _ _ => 0) a b

/-- The trivial `1 × 1` overlap matrix. -/
def exS1 : Fin 1 → Fin 1 → ℚ := fun _ _ => 1

/-! ## Frame and invariant lemmas for the append operations -/

theorem appendOverlap_castSucc {m : ℕ} (overlap : Fin m → Fin m → ℚ)
    (ovlpOf : Fin (m + 1) → ℚ) (i j : Fin m) :
    appendOverlap overlap ovlpOf i.castSucc j.castSucc = overlap i j := by
  unfold appendOverlap
  rw [dif_neg (Fin.castSucc_lt_last j).ne, dif_neg (Fin.castSucc_lt_last i).ne]
  simp

theorem appendOneRdm_castSucc {m d : ℕ} (one_rdm : Fin m → Fin m → Fin d → Fin d → ℚ)
    (rdm1Of : Fin (m + 1) → Fin d → Fin d → ℚ) (i j : Fin m) (k l : Fin d) :
    appendOneRdm one_rdm rdm1Of i.castSucc j.castSucc k l = one_rdm i j k l := by
  unfold appendOneRdm
  rw [dif_neg (Fin.castSucc_lt_last j).ne, dif_neg (Fin.castSucc_lt_last i).ne]
  simp

theorem appendTwoRdm_castSucc {m d : ℕ}
    (two_rdm : Fin m → Fin m → Fin d → Fin d → Fin d → Fin d → ℚ)
    (rdm2Of : Fin (m + 1) → Fin d → Fin d → Fin d → Fin d → ℚ)
    (i j : Fin m) (k l k' l' : Fin d) :
    appendTwoRdm two_rdm rdm2Of i.castSucc j.castSucc k l k' l' =
      two_rdm i j k l k' l' := by
  unfold appendTwoRdm
  rw [dif_neg (Fin.castSucc_lt_last j).ne, dif_neg (Fin.castSucc_lt_last i).ne]
  simp

/-- C5: appending one geometry via any of the three append functions returns
arrays of training-set size `N+1` whose leading `N × N (× …)` block equals the
original input arrays exactly, element for element; prior entries are never
retroactively mutated. (The leading block is addressed through `Fin.castSucc`,
i.e. the indices `0, …, N-1` of the enlarged arrays.) -/
theorem c5_append_preserves_leading_block {m d : ℕ}
    (overlap : Fin m → Fin m → ℚ)
    (one_rdm : Fin m → Fin m → Fin d → Fin d → ℚ)
    (two_rdm : Fin m → Fin m → Fin d → Fin d → Fin d → Fin d → ℚ)
    (ovlpOf : Fin (m + 1) → ℚ)
    (rdm1Of : Fin (m + 1) → Fin d → Fin d → ℚ)
    (rdm2Of : Fin (m + 1) → Fin d → Fin d → Fin d → Fin d → ℚ)
    (i j : Fin m) (k l k' l' : Fin d) :
    ((append_to_rdms_rerun overlap one_rdm two_rdm ovlpOf rdm1Of rdm2Of).1
        i.castSucc j.castSucc = overlap i j ∧
      (append_to_rdms_rerun overlap one_rdm two_rdm ovlpOf rdm1Of rdm2Of).2.1
        i.castSucc j.castSucc k l = one_rdm i j k l ∧
      (append_to_rdms_rerun overlap one_rdm two_rdm ovlpOf rdm1Of rdm2Of).2.2
        i.castSucc j.castSucc k l k' l' = two_rdm i j k l k' l') ∧
    ((append_to_rdms_orbital_rotation overlap one_rdm two_rdm ovlpOf rdm1Of rdm2Of).1
        i.castSucc j.castSucc = overlap i j ∧
      (append_to_rdms_orbital_rotation overlap one_rdm two_rdm ovlpOf rdm1Of rdm2Of).2.1
        i.castSucc j.castSucc k l = one_rdm i j k l ∧
      (append_to_rdms_orbital_rotation overlap one_rdm two_rdm ovlpOf rdm1Of rdm2Of).2.2
        i.castSucc j.castSucc k l k' l' = two_rdm i j k l k' l') ∧
    ((append_to_rdms_OAO_basis overlap one_rdm two_rdm ovlpOf rdm1Of rdm2Of).1
        i.castSucc j.castSucc = overlap i j ∧
      (append_to_rdms_OAO_basis overlap one_rdm two_rdm ovlpOf rdm1Of rdm2Of).2.1
        i.castSucc j.castSucc k l = one_rdm i j k l ∧
      (append_to_rdms_OAO_basis overlap one_rdm two_rdm ovlpOf rdm1Of rdm2Of).2.2
        i.castSucc j.castSucc k l k' l' = two_rdm i j k l k' l') :=
  ⟨⟨appendOverlap_castSucc _ _ _ _,
      appendOneRdm_castSucc _ _ _ _ _ _, appendTwoRdm_castSucc _ _ _ _ _ _ _ _⟩,
    ⟨appendOverlap_castSucc _ _ _ _,
      appendOneRdm_castSucc _ _ _ _ _ _, appendTwoRdm_castSucc _ _ _ _ _ _ _ _⟩,
    ⟨appendOverlap_castSucc _ _ _ _,
      appendOneRdm_castSucc _ _ _ _ _ _, appendTwoRdm_castSucc _ _ _ _ _ _ _ _⟩⟩

theorem appendOverlap_diag {m : ℕ} (overlap : Fin m → Fin m → ℚ)
    (ovlpOf : Fin (m + 1) → ℚ) (hdiag : ∀ i, overlap i i = 1)
    (hself : ovlpOf (Fin.last m) = 1) (i : Fin (m + 1)) :
    appendOverlap overlap ovlpOf i i = 1 := by
  unfold appendOverlap npconj
  by_cases hi : i = Fin.last m
  · simp [hi, hself]
  · simp [hi, hdiag]

theorem appendOverlap_symm {m : ℕ} (overlap : Fin m → Fin m → ℚ)
    (ovlpOf : Fin (m + 1) → ℚ)
    (hsym : ∀ i j, overlap i j = npconj (overlap j i)) (i j : Fin (m + 1)) :
    appendOverlap overlap ovlpOf i j = npconj (appendOverlap overlap ovlpOf j i) := by
  unfold appendOverlap npconj
  by_cases hj : j = Fin.last m <;> by_cases hi : i = Fin.last m
  all_goals simp [hi, hj]
  exact hsym _ _

/-- C8: for a training set produced by an append operation, the returned
overlap matrix has unit diagonal and satisfies
`overlap[i,j] = conj(overlap[j,i])`, assuming the input overlap block already
satisfied these properties and the external DMRG solver returns a normalized
bra state (`⟨bra|bra⟩ = 1`, the spec's "each training state self-normalized"),
so that the freshly written diagonal entry is `1`. This holds for all three
append functions. -/
theorem c8_overlap_invariants {m d : ℕ}
    (overlap : Fin m → Fin m → ℚ)
    (one_rdm : Fin m → Fin m → Fin d → Fin d → ℚ)
    (two_rdm : Fin m → Fin m → Fin d → Fin d → Fin d → Fin d → ℚ)
    (ovlpOf : Fin (m + 1) → ℚ)
    (rdm1Of : Fin (m + 1) → Fin d → Fin d → ℚ)
    (rdm2Of : Fin (m + 1) → Fin d → Fin d → Fin d → Fin d → ℚ)
    (hdiag : ∀ i, overlap i i = 1)
    (hsym : ∀ i j, overlap i j = npconj (overlap j i))
    (hself : ovlpOf (Fin.last m) = 1) :
    (∀ i, (append_to_rdms_rerun overlap one_rdm two_rdm ovlpOf rdm1Of rdm2Of).1 i i = 1) ∧
    (∀ i j, (append_to_rdms_rerun overlap one_rdm two_rdm ovlpOf rdm1Of rdm2Of).1 i j =
      npconj ((append_to_rdms_rerun overlap one_rdm two_rdm ovlpOf rdm1Of rdm2Of).1 j i)) ∧
    (∀ i, (append_to_rdms_orbital_rotation overlap one_rdm two_rdm ovlpOf rdm1Of rdm2Of).1 i i = 1) ∧
    (∀ i j, (append_to_rdms_orbital_rotation overlap one_rdm two_rdm ovlpOf rdm1Of rdm2Of).1 i j =
      npconj ((append_to_rdms_orbital_rotation overlap one_rdm two_rdm ovlpOf rdm1Of rdm2Of).1 j i)) ∧
    (∀ i, (append_to_rdms_OAO_basis overlap one_rdm two_rdm ovlpOf rdm1Of rdm2Of).1 i i = 1) ∧
    (∀ i j, (append_to_rdms_OAO_basis overlap one_rdm two_rdm ovlpOf rdm1Of rdm2Of).1 i j =
      npconj ((append_to_rdms_OAO_basis overlap one_rdm two_rdm ovlpOf rdm1Of rdm2Of).1 j i)) :=
  ⟨fun i => appendOverlap_diag overlap ovlpOf hdiag hself i,
    fun i j => appendOverlap_symm overlap ovlpOf hsym i j,
    fun i => appendOverlap_diag overlap ovlpOf hdiag hself i,
    fun i j => appendOverlap_symm overlap ovlpOf hsym i j,
    fun i => appendOverlap_diag overlap ovlpOf hdiag hself i,
    fun i j => appendOverlap_symm overlap ovlpOf hsym i j⟩

/-- Witness for `c8_overlap_invariants` at a concrete size-1 → size-2 append. -/
theorem c8_witness :
    (∀ i, (append_to_rdms_rerun (m := 1) (d := 1) (fun _ _ => 1) (fun _ _ _ _ => 1)
      (fun _ _ _ _ _ _ => 1) (fun i => if i = 0 then 1 / 3 else 1)
      (fun _ _ _ => 1) (fun _ _ _ _ _ => 1)).1 i i = 1) ∧
    (∀ i j, (append_to_rdms_rerun (m := 1) (d := 1) (fun _ _ => 1) (fun _ _ _ _ => 1)
      (fun _ _ _ _ _ _ => 1) (fun i => if i = 0 then 1 / 3 else 1)
      (fun _ _ _ => 1) (fun _ _ _ _ _ => 1)).1 i j =
      npconj ((append_to_rdms_rerun (m := 1) (d := 1) (fun _ _ => 1) (fun _ _ _ _ => 1)
        (fun _ _ _ _ _ _ => 1) (fun i => if i = 0 then 1 / 3 else 1)
        (fun _ _ _ => 1) (fun _ _ _ _ _ => 1)).1 j i)) := by
  have h := c8_overlap_invariants (m := 1) (d := 1) (fun _ _ => 1) (fun _ _ _ _ => 1)
    (fun _ _ _ _ _ _ => 1) (fun i => if i = 0 then 1 / 3 else 1)
    (fun _ _ _ => 1) (fun _ _ _ _ _ => 1)
    (by decide) (by intro i j; rfl) (by decide)
  exact ⟨h.1, h.2.1⟩

/-- C3 counterexample: the three append functions store the conjugate of the
new transition 1-RDM block into the mirrored slot WITHOUT transposing its
orbital axes (`one_rdm_new[i, -1, :, :] = rdm1.conj()`), so when the external
solver returns a non-symmetric transition block the claimed relation
`one_RDM[i,j] = one_RDM[j,i].conj()^T` fails, even though the input arrays
satisfied it. Here the new block is `[[0,1],[0,0]]` and the element `(0,1)`
of the `(0,1)`-block differs from the conjugate-transpose of the
`(1,0)`-block. -/
theorem c3_counterexample :
    ¬ ((append_to_rdms_rerun (m := 1) (d := 2) (fun _ _ => 1)
        (fun _ _ k l => if k = l then 1 else 0) (fun _ _ _ _ _ _ => 0)
        (fun _ => 1) (fun _ k l => if k = 0 ∧ l = 1 then 1 else 0)
        (fun _ _ _ _ _ => 0)).2.1 0 1 0 1 =
      npconj ((append_to_rdms_rerun (m := 1) (d := 2) (fun _ _ => 1)
        (fun _ _ k l => if k = l then 1 else 0) (fun _ _ _ _ _ _ => 0)
        (fun _ => 1) (fun _ k l => if k = 0 ∧ l = 1 then 1 else 0)
        (fun _ _ _ _ _ => 0)).2.1 1 0 1 0)) := by
  decide

theorem appendOneRdm_mirror {m d : ℕ}
    (one_rdm : Fin m → Fin m → Fin d → Fin d → ℚ)
    (rdm1Of : Fin (m + 1) → Fin d → Fin d → ℚ)
    (hin : ∀ i j k l, one_rdm i j k l = npconj (one_rdm j i l k))
    (hblk : ∀ i k l, rdm1Of i k l = rdm1Of i l k) (i j : Fin (m + 1)) (k l : Fin d) :
    appendOneRdm one_rdm rdm1Of i j k l =
      npconj (appendOneRdm one_rdm rdm1Of j i l k) := by
  unfold appendOneRdm npconj
  by_cases hj : j = Fin.last m <;> by_cases hi : i = Fin.last m
  all_goals simp [hi, hj]
  · exact hblk _ _ _
  · exact hblk _ _ _
  · exact hblk _ _ _
  · exact hin _ _ _ _

/-- C3 amended: after every append operation the returned one_RDM satisfies
the elementwise mirror relation
`one_RDM[i,j][k,l] = conj(one_RDM[j,i][l,k])` PROVIDED each newly computed
transition 1-RDM block is a symmetric matrix (the code omits the transpose
when mirroring, so symmetry of the appended block is exactly what the
counterexample forces us to assume), and assuming the input arrays already
satisfied the relation. This holds for all three append functions. -/
theorem c3_one_rdm_mirror_amended {m d : ℕ}
    (overlap : Fin m → Fin m → ℚ)
    (one_rdm : Fin m → Fin m → Fin d → Fin d → ℚ)
    (two_rdm : Fin m → Fin m → Fin d → Fin d → Fin d → Fin d → ℚ)
    (ovlpOf : Fin (m + 1) → ℚ)
    (rdm1Of : Fin (m + 1) → Fin d → Fin d → ℚ)
    (rdm2Of : Fin (m + 1) → Fin d → Fin d → Fin d → Fin d → ℚ)
    (hin : ∀ i j k l, one_rdm i j k l = npconj (one_rdm j i l k))
    (hblk : ∀ i k l, rdm1Of i k l = rdm1Of i l k) :
    (∀ i j k l, (append_to_rdms_rerun overlap one_rdm two_rdm ovlpOf rdm1Of rdm2Of).2.1 i j k l =
      npconj ((append_to_rdms_rerun overlap one_rdm two_rdm ovlpOf rdm1Of rdm2Of).2.1 j i l k)) ∧
    (∀ i j k l, (append_to_rdms_orbital_rotation overlap one_rdm two_rdm ovlpOf rdm1Of rdm2Of).2.1 i j k l =
      npconj ((append_to_rdms_orbital_rotation overlap one_rdm two_rdm ovlpOf rdm1Of rdm2Of).2.1 j i l k)) ∧
    (∀ i j k l, (append_to_rdms_OAO_basis overlap one_rdm two_rdm ovlpOf rdm1Of rdm2Of).2.1 i j k l =
      npconj ((append_to_rdms_OAO_basis overlap one_rdm two_rdm ovlpOf rdm1Of rdm2Of).2.1 j i l k)) :=
  ⟨fun i j k l => appendOneRdm_mirror one_rdm rdm1Of hin hblk i j k l,
    fun i j k l => appendOneRdm_mirror one_rdm rdm1Of hin hblk i j k l,
    fun i j k l => appendOneRdm_mirror one_rdm rdm1Of hin hblk i j k l⟩

/-- Witness for `c3_one_rdm_mirror_amended` at a concrete append with a
symmetric new block. -/
theorem c3_witness :
    (append_to_rdms_rerun (m := 1) (d := 2) (fun _ _ => 1)
      (fun _ _ k l => if k = l then 1 else 0) (fun _ _ _ _ _ _ => 0)
      (fun _ => 1) (fun _ k l => if k = l then 2 else 5) (fun _ _ _ _ _ => 0)).2.1 0 1 0 1 =
      npconj ((append_to_rdms_rerun (m := 1) (d := 2) (fun _ _ => 1)
        (fun _ _ k l => if k = l then 1 else 0) (fun _ _ _ _ _ _ => 0)
        (fun _ => 1) (fun _ k l => if k = l then 2 else 5) (fun _ _ _ _ _ => 0)).2.1 1 0 1 0) :=
  (c3_one_rdm_mirror_amended (m := 1) (d := 2) (fun _ _ => 1)
    (fun _ _ k l => if k = l then 1 else 0) (fun _ _ _ _ _ _ => 0)
    (fun _ => 1) (fun _ k l => if k = l then 2 else 5) (fun _ _ _ _ _ => 0)
    (by decide) (by decide)).1 0 1 0 1

/-! ## Degenerate-eigenvalue safety in `loewdin_trafo_grad` -/

/-- C9: if two eigenvalues of the overlap matrix coincide exactly, the index
pair belongs to the `degenerate_subspace` mask (rounding preserves equality),
the `Zji` coupling is left exactly zero there, and the first-order-perturbation
denominator `vals[j] - vals[i]` is nonzero at every index pair where it is
actually evaluated (the pairs outside the mask) — so the division never hits a
zero denominator. -/
theorem c9_degenerate_no_div {n : ℕ} (vals : Fin n → ℚ)
    (Vji : Fin n → Fin n → Fin n → Fin n → ℚ) (a b i j : Fin n)
    (hdeg : vals i = vals j) :
    degenerateSubspace vals i j = true ∧
    loewdinZji vals Vji a b i j = 0 ∧
    ∀ k l : Fin n, degenerateSubspace vals k l = false → vals l - vals k ≠ 0 := by
  have hmask : degenerateSubspace vals i j = true := by
    unfold degenerateSubspace
    rw [hdeg]
    simp
  refine ⟨hmask, ?_, ?_⟩
  · unfold loewdinZji
    rw [hmask]
    simp
  · intro k l hkl hzero
    have heq : vals k = vals l := by linarith [sub_eq_zero.mp hzero]
    have : degenerateSubspace vals k l = true := by
      unfold degenerateSubspace
      rw [heq]
      simp
    rw [this] at hkl
    exact Bool.noConfusion hkl

/-- Witness for `c9_degenerate_no_div` on a spectrum with an exact twofold
degeneracy. -/
theorem c9_witness :
    degenerateSubspace (n := 3) ![1, 1, 2] 0 1 = true ∧
    loewdinZji (n := 3) ![1, 1, 2] (fun _ _ _ _ => 1) 0 0 0 1 = 0 ∧
    ∀ k l : Fin 3, degenerateSubspace (n := 3) ![1, 1, 2] k l = false →
      (![1, 1, 2] : Fin 3 → ℚ) l - ![1, 1, 2] k ≠ 0 :=
  c9_degenerate_no_div ![1, 1, 2] (fun _ _ _ _ => 1) 0 0 0 1 (by decide)

/-! ## Selection and sorting lemmas for the eigenpair post-processing -/

theorem foldl_min_eq {N : ℕ} (xs : List (EigPair N)) :
    ∀ a : EigPair N,
      xs.foldl (fun acc q => if q.val.1 < acc.val.1 then q else acc) a =
        match firstMin xs with
        | none => a
        | some m => if m.val.1 < a.val.1 then m else a := by
  induction xs with
  | nil => intro a; rfl
  | cons x xs ih =>
    intro a
    simp only [List.foldl_cons]
    rw [ih]
    cases h : firstMin xs with
    | none => simp [firstMin, h]
    | some m =>
      simp only [firstMin, h]
      split_ifs <;> first | rfl | (exfalso; linarith)

theorem selectMin_eq_firstMin {N : ℕ} (l : List (EigPair N)) :
    selectMin l = firstMin l := by
  cases l with
  | nil => rfl
  | cons p ps =>
    simp only [selectMin, firstMin]
    rw [foldl_min_eq]
    cases h : firstMin ps with
    | none => rfl
    | some m =>
      simp only []
      congr 1
      split_ifs <;> first | rfl | (exfalso; linarith)

theorem firstMin_eq_none_iff {N : ℕ} (l : List (EigPair N)) :
    firstMin l = none ↔ l = [] := by
  cases l <;> simp [firstMin]

theorem firstMin_mem {N : ℕ} :
    ∀ {l : List (EigPair N)} {p : EigPair N}, firstMin l = some p → p ∈ l := by
  intro l
  induction l with
  | nil => intro p h; cases h
  | cons x xs ih =>
    intro p h
    simp only [firstMin] at h
    cases hx : firstMin xs with
    | none =>
      rw [hx] at h
      simp only [Option.some.injEq] at h
      exact h ▸ List.mem_cons_self x xs
    | some m =>
      rw [hx] at h
      simp only [Option.some.injEq] at h
      by_cases hle : x.val.1 ≤ m.val.1
      · rw [if_pos hle] at h
        exact h ▸ List.mem_cons_self x xs
      · rw [if_neg hle] at h
        exact h ▸ List.mem_cons_of_mem x (ih hx)

theorem firstMin_le {N : ℕ} :
    ∀ {l : List (EigPair N)} {p : EigPair N}, firstMin l = some p →
      ∀ q ∈ l, p.val.1 ≤ q.val.1 := by
  intro l
  induction l with
  | nil => intro p h; cases h
  | cons x xs ih =>
    intro p h q hq
    simp only [firstMin] at h
    rcases List.mem_cons.mp hq with hqx | hqxs
    · rw [hqx]
      cases hx : firstMin xs with
      | none =>
        rw [hx] at h; simp only [Option.some.injEq] at h; rw [← h]
      | some m =>
        rw [hx] at h; simp only [Option.some.injEq] at h
        by_cases hle : x.val.1 ≤ m.val.1
        · rw [if_pos hle] at h; rw [← h]
        · rw [if_neg hle] at h; rw [← h]; linarith
    · cases hx : firstMin xs with
      | none =>
        rw [firstMin_eq_none_iff] at hx
        subst hx; cases hqxs
      | some m =>
        have hm := ih hx q hqxs
        rw [hx] at h; simp only [Option.some.injEq] at h
        by_cases hle : x.val.1 ≤ m.val.1
        · rw [if_pos hle] at h; rw [← h]; linarith
        · rw [if_neg hle] at h; rw [← h]; exact hm

theorem head_insertionSort_eq_firstMin {N : ℕ} (l : List (EigPair N)) :
    (List.insertionSort byRe l).head? = firstMin l := by
  induction l with
  | nil => rfl
  | cons x xs ih =>
    show (List.orderedInsert byRe x (List.insertionSort byRe xs)).head? = _
    cases hL : List.insertionSort byRe xs with
    | nil =>
      have hnone : firstMin xs = none := by rw [← ih, hL]; rfl
      simp [List.orderedInsert, firstMin, hnone]
    | cons b L =>
      have hb : firstMin xs = some b := by rw [← ih, hL]; rfl
      simp only [List.orderedInsert, firstMin, hb]
      by_cases hxb : byRe x b
      · rw [if_pos hxb]
        simp only [List.head?_cons, Option.some.injEq]
        rw [if_pos (show x.val.1 ≤ b.val.1 from hxb)]
      · rw [if_neg hxb]
        simp only [List.head?_cons, Option.some.injEq]
        rw [if_neg (show ¬x.val.1 ≤ b.val.1 from hxb)]

theorem map_orderedInsert_val {N : ℕ} (x : EigPair N) (l : List (EigPair N)) :
    (List.orderedInsert byRe x l).map (fun p => p.val.1) =
      List.orderedInsert (· ≤ ·) x.val.1 (l.map fun p => p.val.1) := by
  induction l with
  | nil => rfl
  | cons b L ih =>
    simp only [List.orderedInsert, List.map_cons]
    by_cases h : byRe x b
    · rw [if_pos h, if_pos (show x.val.1 ≤ b.val.1 from h)]
      simp
    · rw [if_neg h, if_neg (show ¬x.val.1 ≤ b.val.1 from h)]
      simp only [List.map_cons, ih]

theorem map_insertionSort_val {N : ℕ} (l : List (EigPair N)) :
    (List.insertionSort byRe l).map (fun p => p.val.1) =
      List.insertionSort (· ≤ ·) (l.map fun p => p.val.1) := by
  induction l with
  | nil => rfl
  | cons x xs ih =>
    show (List.orderedInsert byRe x (List.insertionSort byRe xs)).map (fun p => p.val.1) = _
    rw [map_orderedInsert_val, ih]
    rfl

theorem approximate_ground_state_ok_eq {N d : ℕ} (solve : Solver N)
    (h1 : Fin d → Fin d → ℚ) (h2 : Fin d → Fin d → Fin d → Fin d → ℚ)
    (one_RDM : Fin N → Fin N → Fin d → Fin d → ℚ) (two_RDM : TwoRDMArr N d)
    (S : Fin N → Fin N → ℚ) (hermitian : Bool) (H : Fin N → Fin N → ℚ)
    (hb : buildH h1 h2 one_RDM two_RDM hermitian = .ok H) :
    approximate_ground_state solve h1 h2 one_RDM two_RDM S hermitian =
      ground_state_post solve S hermitian H := by
  unfold approximate_ground_state
  rw [hb]

theorem approximate_ground_state_err_eq {N d : ℕ} (solve : Solver N)
    (h1 : Fin d → Fin d → ℚ) (h2 : Fin d → Fin d → Fin d → Fin d → ℚ)
    (one_RDM : Fin N → Fin N → Fin d → Fin d → ℚ) (two_RDM : TwoRDMArr N d)
    (S : Fin N → Fin N → ℚ) (hermitian : Bool) (e : EvErr)
    (hb : buildH h1 h2 one_RDM two_RDM hermitian = .error e) :
    approximate_ground_state solve h1 h2 one_RDM two_RDM S hermitian = .error e := by
  unfold approximate_ground_state
  rw [hb]

theorem approximate_multistate_ok_eq {N d : ℕ} (solve : Solver N)
    (h1 : Fin d → Fin d → ℚ) (h2 : Fin d → Fin d → Fin d → Fin d → ℚ)
    (one_RDM : Fin N → Fin N → Fin d → Fin d → ℚ) (two_RDM : TwoRDMArr N d)
    (S : Fin N → Fin N → ℚ) (nroots : ℕ) (hermitian : Bool) (H : Fin N → Fin N → ℚ)
    (hb : buildH h1 h2 one_RDM two_RDM hermitian = .ok H) :
    approximate_multistate solve h1 h2 one_RDM two_RDM S nroots hermitian =
      multistate_post solve S nroots hermitian H := by
  unfold approximate_multistate
  rw [hb]

theorem approximate_multistate_err_eq {N d : ℕ} (solve : Solver N)
    (h1 : Fin d → Fin d → ℚ) (h2 : Fin d → Fin d → Fin d → Fin d → ℚ)
    (one_RDM : Fin N → Fin N → Fin d → Fin d → ℚ) (two_RDM : TwoRDMArr N d)
    (S : Fin N → Fin N → ℚ) (nroots : ℕ) (hermitian : Bool) (e : EvErr)
    (hb : buildH h1 h2 one_RDM two_RDM hermitian = .error e) :
    approximate_multistate solve h1 h2 one_RDM two_RDM S nroots hermitian = .error e := by
  unfold approximate_multistate
  rw [hb]

theorem multistate_post_ok_inv {N : ℕ} (solve : Solver N) (S : Fin N → Fin N → ℚ)
    (nroots : ℕ) (hermitian : Bool) (H : Fin N → Fin N → ℚ)
    (ens : List ℚ) (vs : List (Fin N → ℚ))
    (h : multistate_post solve S nroots hermitian H = .ok (ens, vs)) :
    nroots ≤ (validPairs (solveGen solve hermitian H S)).length ∧
      ens = ((List.insertionSort byRe (validPairs (solveGen solve hermitian H S))).take
          nroots).map (fun p => p.val.1) ∧
      vs = ((List.insertionSort byRe (validPairs (solveGen solve hermitian H S))).take
          nroots).map (fun p i => (p.vec i).1) := by
  unfold multistate_post at h
  by_cases hn : nroots ≤ (validPairs (solveGen solve hermitian H S)).length
  · rw [if_pos hn] at h
    simp only [Except.ok.injEq, Prod.mk.injEq] at h
    exact ⟨hn, h.1.symm, h.2.symm⟩
  · rw [if_neg hn] at h
    cases h

theorem ground_state_post_ok_inv {N : ℕ} (solve : Solver N) (S : Fin N → Fin N → ℚ)
    (hermitian : Bool) (H : Fin N → Fin N → ℚ) (en : ℚ) (v : Fin N → ℚ)
    (h : ground_state_post solve S hermitian H = .ok (en, v)) :
    ∃ p : EigPair N, selectMin (validPairs (solveGen solve hermitian H S)) = some p ∧
      en = p.val.1 ∧ v = fun i => (p.vec i).1 := by
  unfold ground_state_post at h
  cases hsel : selectMin (validPairs (solveGen solve hermitian H S)) with
  | none => rw [hsel] at h; cases h
  | some p =>
    rw [hsel] at h
    simp only [Except.ok.injEq, Prod.mk.injEq] at h
    exact ⟨p, rfl, h.1.symm, h.2.symm⟩

/-- C7: whenever `approximate_multistate` returns (i.e. the assert passes),
the returned list of `nroots` energies is sorted in non-decreasing order. -/
theorem c7_multistate_sorted {N d : ℕ} (solve : Solver N)
    (h1 : Fin d → Fin d → ℚ) (h2 : Fin d → Fin d → Fin d → Fin d → ℚ)
    (one_RDM : Fin N → Fin N → Fin d → Fin d → ℚ) (two_RDM : TwoRDMArr N d)
    (S : Fin N → Fin N → ℚ) (nroots : ℕ) (hermitian : Bool)
    (ens : List ℚ) (vs : List (Fin N → ℚ))
    (h : approximate_multistate solve h1 h2 one_RDM two_RDM S nroots hermitian =
      .ok (ens, vs)) :
    ens.Sorted (· ≤ ·) := by
  cases hb : buildH h1 h2 one_RDM two_RDM hermitian with
  | error e =>
    rw [approximate_multistate_err_eq solve h1 h2 one_RDM two_RDM S nroots hermitian e hb] at h
    cases h
  | ok H =>
    rw [approximate_multistate_ok_eq solve h1 h2 one_RDM two_RDM S nroots hermitian H hb] at h
    obtain ⟨-, hens, -⟩ := multistate_post_ok_inv solve S nroots hermitian H ens vs h
    subst hens
    have hsorted : (List.insertionSort byRe
        (validPairs (solveGen solve hermitian H S))).Sorted byRe :=
      List.sorted_insertionSort byRe _
    have htake := hsorted.sublist (List.take_sublist nroots _)
    exact List.Pairwise.map (R := byRe) (S := fun x y : ℚ => x ≤ y)
      (fun p => p.val.1) (fun a b hab => hab) htake

/-- Witness for `c7_multistate_sorted` at a concrete input. -/
theorem c7_witness :
    ([(0 : ℚ), 1] : List ℚ).Sorted (· ≤ ·) :=
  c7_multistate_sorted (N := 1) (d := 1)
    (fun _ _ _ => [⟨(1, 0), fun _ => (1, 0)⟩, ⟨(0, 0), fun _ => (2, 0)⟩])
    (fun _ _ => 0) (fun _ _ _ _ => 0) (fun _ _ _ _ => 0)
    (.full fun _ _ _ _ _ _ => 0) (fun _ _ => 1) 2 true
    [0, 1] [fun _ => 2, fun _ => 1] rfl

theorem lastMin_eq_none_iff {N : ℕ} (l : List (EigPair N)) :
    lastMin l = none ↔ l = [] := by
  cases l <;> simp [lastMin]

theorem lastMin_mem {N : ℕ} :
    ∀ {l : List (EigPair N)} {p : EigPair N}, lastMin l = some p → p ∈ l := by
  intro l
  induction l with
  | nil => intro p h; cases h
  | cons x xs ih =>
    intro p h
    simp only [lastMin] at h
    cases hx : lastMin xs with
    | none =>
      rw [hx] at h
      simp only [Option.some.injEq] at h
      exact h ▸ List.mem_cons_self x xs
    | some m =>
      rw [hx] at h
      simp only [Option.some.injEq] at h
      by_cases hlt : x.val.1 < m.val.1
      · rw [if_pos hlt] at h
        exact h ▸ List.mem_cons_self x xs
      · rw [if_neg hlt] at h
        exact h ▸ List.mem_cons_of_mem x (ih hx)

theorem lastMin_le {N : ℕ} :
    ∀ {l : List (EigPair N)} {p : EigPair N}, lastMin l = some p →
      ∀ q ∈ l, p.val.1 ≤ q.val.1 := by
  intro l
  induction l with
  | nil => intro p h; cases h
  | cons x xs ih =>
    intro p h q hq
    simp only [lastMin] at h
    rcases List.mem_cons.mp hq with hqx | hqxs
    · rw [hqx]
      cases hx : lastMin xs with
      | none =>
        rw [hx] at h; simp only [Option.some.injEq] at h; rw [← h]
      | some m =>
        rw [hx] at h; simp only [Option.some.injEq] at h
        by_cases hlt : x.val.1 < m.val.1
        · rw [if_pos hlt] at h; rw [← h]
        · rw [if_neg hlt] at h; rw [← h]; linarith [le_of_not_lt hlt]
    · cases hx : lastMin xs with
      | none =>
        rw [lastMin_eq_none_iff] at hx
        subst hx; cases hqxs
      | some m =>
        have hm := ih hx q hqxs
        rw [hx] at h; simp only [Option.some.injEq] at h
        by_cases hlt : x.val.1 < m.val.1
        · rw [if_pos hlt] at h; rw [← h]; linarith
        · rw [if_neg hlt] at h; rw [← h]; exact hm

theorem head_insertionSortStrict_eq_lastMin {N : ℕ} (l : List (EigPair N)) :
    (List.insertionSort byReStrict l).head? = lastMin l := by
  induction l with
  | nil => rfl
  | cons x xs ih =>
    show (List.orderedInsert byReStrict x (List.insertionSort byReStrict xs)).head? = _
    cases hL : List.insertionSort byReStrict xs with
    | nil =>
      have hnone : lastMin xs = none := by rw [← ih, hL]; rfl
      simp [List.orderedInsert, lastMin, hnone]
    | cons b L =>
      have hb : lastMin xs = some b := by rw [← ih, hL]; rfl
      simp only [List.orderedInsert, lastMin, hb]
      by_cases hxb : byReStrict x b
      · rw [if_pos hxb]
        simp only [List.head?_cons, Option.some.injEq]
        rw [if_pos (show x.val.1 < b.val.1 from hxb)]
      · rw [if_neg hxb]
        simp only [List.head?_cons, Option.some.injEq]
        rw [if_neg (show ¬x.val.1 < b.val.1 from hxb)]

theorem approximate_multistate_tieRev_ok_eq {N d : ℕ} (solve : Solver N)
    (h1 : Fin d → Fin d → ℚ) (h2 : Fin d → Fin d → Fin d → Fin d → ℚ)
    (one_RDM : Fin N → Fin N → Fin d → Fin d → ℚ) (two_RDM : TwoRDMArr N d)
    (S : Fin N → Fin N → ℚ) (nroots : ℕ) (hermitian : Bool) (H : Fin N → Fin N → ℚ)
    (hb : buildH h1 h2 one_RDM two_RDM hermitian = .ok H) :
    approximate_multistate_tieRev solve h1 h2 one_RDM two_RDM S nroots hermitian =
      multistate_post_tieRev solve S nroots hermitian H := by
  unfold approximate_multistate_tieRev
  rw [hb]

theorem multistate_post_one_root {N : ℕ} (solve : Solver N) (S : Fin N → Fin N → ℚ)
    (hermitian : Bool) (H : Fin N → Fin N → ℚ) (p : EigPair N)
    (hlen : 1 ≤ (validPairs (solveGen solve hermitian H S)).length)
    (hhead : (List.insertionSort byRe
      (validPairs (solveGen solve hermitian H S))).head? = some p) :
    multistate_post solve S 1 hermitian H =
      .ok ([p.val.1], [fun i => (p.vec i).1]) := by
  cases hL : List.insertionSort byRe (validPairs (solveGen solve hermitian H S)) with
  | nil => rw [hL] at hhead; cases hhead
  | cons q L =>
    rw [hL] at hhead
    simp only [List.head?_cons, Option.some.injEq] at hhead
    subst hhead
    unfold multistate_post
    rw [if_pos hlen, hL]
    simp only [List.take_succ_cons, List.take_zero, List.map_cons, List.map_nil]

theorem multistate_post_tieRev_one_root {N : ℕ} (solve : Solver N)
    (S : Fin N → Fin N → ℚ) (hermitian : Bool) (H : Fin N → Fin N → ℚ)
    (p : EigPair N)
    (hlen : 1 ≤ (validPairs (solveGen solve hermitian H S)).length)
    (hhead : (List.insertionSort byReStrict
      (validPairs (solveGen solve hermitian H S))).head? = some p) :
    multistate_post_tieRev solve S 1 hermitian H =
      .ok ([p.val.1], [fun i => (p.vec i).1]) := by
  cases hL : List.insertionSort byReStrict (validPairs (solveGen solve hermitian H S)) with
  | nil => rw [hL] at hhead; cases hhead
  | cons q L =>
    rw [hL] at hhead
    simp only [List.head?_cons, Option.some.injEq] at hhead
    subst hhead
    unfold multistate_post_tieRev
    rw [if_pos hlen, hL]
    simp only [List.take_succ_cons, List.take_zero, List.map_cons, List.map_nil]

/-- C10 counterexample: the claimed eigenvector equality is not guaranteed by
the program. `np.argmin` (ground state, line 84) returns the FIRST index
attaining the minimum, but `np.argsort` (multistate, line 169) uses numpy's
default quicksort, which is documented as not stable, so on exactly tied real
parts `argsort(...)[:nroots]` may legally select a different tied index.
Concretely: with two surviving eigenpairs, both of eigenvalue `0`, with
eigenvectors `[1]` and `[2]`, `approximate_ground_state` returns the
eigenvector `[1]`, while the equally faithful reversed-tie reading of the
multistate code with `nroots = 1` returns the eigenvector `[2] ≠ [1]` (the
energies agree). -/
theorem c10_counterexample :
    approximate_ground_state (N := 1) (d := 1) exSolverTie (fun _ _ => 0)
      (fun _ _ _ _ => 0) (fun _ _ _ _ => 0) (.full fun _ _ _ _ _ _ => 0)
      exS1 true = .ok (0, fun _ => 1) ∧
    approximate_multistate_tieRev (N := 1) (d := 1) exSolverTie (fun _ _ => 0)
      (fun _ _ _ _ => 0) (fun _ _ _ _ => 0) (.full fun _ _ _ _ _ _ => 0)
      exS1 1 true = .ok ([0], [fun _ => 2]) ∧
    ¬((fun _ : Fin 1 => (2 : ℚ)) = fun _ => 1) :=
  ⟨rfl, rfl, by decide⟩

/-- C10 amended: on every input where `approximate_ground_state` succeeds
with `(energy, vector)`, `approximate_multistate` with `nroots = 1` succeeds
and returns the same energy as a one-element array — under either legal
tie-break of `np.argsort`'s non-stable sort (both functions build the
identical effective Hamiltonian, and all eigenpairs surviving the common
filter that attain the minimal real part share that energy). If moreover the
minimal surviving real part is attained by a UNIQUE surviving eigenpair,
both tie-breaks also return the same eigenvector, as a one-row matrix —
which is what the exact-tie counterexample forces us to assume. -/
theorem c10_one_root_amended {N d : ℕ} (solve : Solver N)
    (h1 : Fin d → Fin d → ℚ) (h2 : Fin d → Fin d → Fin d → Fin d → ℚ)
    (one_RDM : Fin N → Fin N → Fin d → Fin d → ℚ) (two_RDM : TwoRDMArr N d)
    (S : Fin N → Fin N → ℚ) (hermitian : Bool) (en : ℚ) (v : Fin N → ℚ)
    (H : Fin N → Fin N → ℚ)
    (hb : buildH h1 h2 one_RDM two_RDM hermitian = .ok H)
    (h : approximate_ground_state solve h1 h2 one_RDM two_RDM S hermitian =
      .ok (en, v)) :
    (∃ vs, approximate_multistate solve h1 h2 one_RDM two_RDM S 1 hermitian =
      .ok ([en], vs)) ∧
    (∃ vs, approximate_multistate_tieRev solve h1 h2 one_RDM two_RDM S 1 hermitian =
      .ok ([en], vs)) ∧
    ((∀ q ∈ validPairs (solveGen solve hermitian H S),
        ∀ q' ∈ validPairs (solveGen solve hermitian H S),
        q.val.1 = en → q'.val.1 = en → q = q') →
      approximate_multistate solve h1 h2 one_RDM two_RDM S 1 hermitian =
        .ok ([en], [v]) ∧
      approximate_multistate_tieRev solve h1 h2 one_RDM two_RDM S 1 hermitian =
        .ok ([en], [v])) := by
  rw [approximate_ground_state_ok_eq solve h1 h2 one_RDM two_RDM S hermitian H hb] at h
  obtain ⟨p, hsel, hen, hv⟩ := ground_state_post_ok_inv solve S hermitian H en v h
  have hfm : firstMin (validPairs (solveGen solve hermitian H S)) = some p := by
    rw [← selectMin_eq_firstMin]
    exact hsel
  have hvne : validPairs (solveGen solve hermitian H S) ≠ [] := by
    intro hnil
    rw [hnil] at hfm
    cases hfm
  have hlen : 1 ≤ (validPairs (solveGen solve hermitian H S)).length :=
    List.length_pos.mpr hvne
  have hheadS : (List.insertionSort byRe
      (validPairs (solveGen solve hermitian H S))).head? = some p := by
    rw [head_insertionSort_eq_firstMin]
    exact hfm
  have hstable : approximate_multistate solve h1 h2 one_RDM two_RDM S 1 hermitian =
      .ok ([p.val.1], [fun i => (p.vec i).1]) := by
    rw [approximate_multistate_ok_eq solve h1 h2 one_RDM two_RDM S 1 hermitian H hb]
    exact multistate_post_one_root solve S hermitian H p hlen hheadS
  obtain ⟨m, hlm⟩ : ∃ m, lastMin (validPairs (solveGen solve hermitian H S)) = some m := by
    cases hvp : validPairs (solveGen solve hermitian H S) with
    | nil => exact absurd hvp hvne
    | cons x xs => exact ⟨_, rfl⟩
  have hmem_m : m ∈ validPairs (solveGen solve hermitian H S) := lastMin_mem hlm
  have hmem_p : p ∈ validPairs (solveGen solve hermitian H S) := firstMin_mem hfm
  have hval : m.val.1 = p.val.1 :=
    le_antisymm (lastMin_le hlm p hmem_p) (firstMin_le hfm m hmem_m)
  have hheadR : (List.insertionSort byReStrict
      (validPairs (solveGen solve hermitian H S))).head? = some m := by
    rw [head_insertionSortStrict_eq_lastMin]
    exact hlm
  have htieRev : approximate_multistate_tieRev solve h1 h2 one_RDM two_RDM S 1 hermitian =
      .ok ([m.val.1], [fun i => (m.vec i).1]) := by
    rw [approximate_multistate_tieRev_ok_eq solve h1 h2 one_RDM two_RDM S 1 hermitian H hb]
    exact multistate_post_tieRev_one_root solve S hermitian H m hlen hheadR
  refine ⟨⟨[fun i => (p.vec i).1], ?_⟩, ⟨[fun i => (m.vec i).1], ?_⟩, ?_⟩
  · rw [hstable, hen]
  · rw [htieRev, hval, hen]
  · intro huniq
    have hmp : m = p := huniq m hmem_m p hmem_p (hval.trans hen.symm) hen.symm
    rw [hmp] at htieRev
    constructor
    · rw [hstable, hen, hv]
    · rw [htieRev, hen, hv]

/-- Witness for `c10_one_root_amended` at a concrete input with a unique
minimal surviving eigenpair. -/
theorem c10_amended_witness :
    (∃ vs, approximate_multistate (N := 1) (d := 1) exSolver1 (fun _ _ => 0)
      (fun _ _ _ _ => 0) (fun _ _ _ _ => 0) (.full fun _ _ _ _ _ _ => 0)
      exS1 1 true = .ok ([0], vs)) ∧
    (∃ vs, approximate_multistate_tieRev (N := 1) (d := 1) exSolver1 (fun _ _ => 0)
      (fun _ _ _ _ => 0) (fun _ _ _ _ => 0) (.full fun _ _ _ _ _ _ => 0)
      exS1 1 true = .ok ([0], vs)) ∧
    (approximate_multistate (N := 1) (d := 1) exSolver1 (fun _ _ => 0)
      (fun _ _ _ _ => 0) (fun _ _ _ _ => 0) (.full fun _ _ _ _ _ _ => 0)
      exS1 1 true = .ok ([0], [fun _ => 1]) ∧
    approximate_multistate_tieRev (N := 1) (d := 1) exSolver1 (fun _ _ => 0)
      (fun _ _ _ _ => 0) (fun _ _ _ _ => 0) (.full fun _ _ _ _ _ _ => 0)
      exS1 1 true = .ok ([0], [fun _ => 1])) := by
  have h := c10_one_root_amended exSolver1 (fun _ _ => 0) (fun _ _ _ _ => 0)
    (fun _ _ _ _ => 0) (.full fun _ _ _ _ _ _ => 0) exS1 true 0 (fun _ => 1)
    exH1 rfl rfl
  exact ⟨h.1, h.2.1, h.2.2 (by decide)⟩

/-- C4: given that the Hamiltonian construction succeeds, (i) the surviving
eigenpair list consists exactly of those returned eigenpairs whose eigenvalue
has imaginary part of magnitude `< 1e-5` (so exactly the pairs with
`|Im λ| ≥ 1e-5` are discarded); (ii) on success, `approximate_ground_state`
returns the real part of a surviving eigenvalue that is algebraically smallest
among all survivors, together with the real part of its eigenvector; (iii) on
success, `approximate_multistate` returns the `nroots` smallest surviving real
parts sorted ascending. -/
theorem c4_filter_and_selection {N d : ℕ} (solve : Solver N)
    (h1 : Fin d → Fin d → ℚ) (h2 : Fin d → Fin d → Fin d → Fin d → ℚ)
    (one_RDM : Fin N → Fin N → Fin d → Fin d → ℚ) (two_RDM : TwoRDMArr N d)
    (S : Fin N → Fin N → ℚ) (hermitian : Bool) (H : Fin N → Fin N → ℚ)
    (hb : buildH h1 h2 one_RDM two_RDM hermitian = .ok H) :
    (∀ p : EigPair N, p ∈ validPairs (solveGen solve hermitian H S) ↔
      p ∈ solveGen solve hermitian H S ∧ |p.val.2| < mkRat 1 100000) ∧
    (∀ en v, approximate_ground_state solve h1 h2 one_RDM two_RDM S hermitian =
        .ok (en, v) →
      ∃ p ∈ validPairs (solveGen solve hermitian H S), en = p.val.1 ∧
        v = (fun i => (p.vec i).1) ∧
        ∀ q ∈ validPairs (solveGen solve hermitian H S), en ≤ q.val.1) ∧
    (∀ nroots ens vs,
      approximate_multistate solve h1 h2 one_RDM two_RDM S nroots hermitian =
        .ok (ens, vs) →
      ens = (List.insertionSort (· ≤ ·)
        ((validPairs (solveGen solve hermitian H S)).map fun p => p.val.1)).take
          nroots) := by
  refine ⟨?_, ?_, ?_⟩
  · intro p
    unfold validPairs
    rw [List.mem_filter]
    simp only [decide_eq_true_eq]
  · intro en v h
    rw [approximate_ground_state_ok_eq solve h1 h2 one_RDM two_RDM S hermitian H hb] at h
    obtain ⟨p, hsel, hen, hv⟩ := ground_state_post_ok_inv solve S hermitian H en v h
    rw [selectMin_eq_firstMin] at hsel
    refine ⟨p, firstMin_mem hsel, hen, hv, ?_⟩
    intro q hq
    rw [hen]
    exact firstMin_le hsel q hq
  · intro nroots ens vs h
    rw [approximate_multistate_ok_eq solve h1 h2 one_RDM two_RDM S nroots hermitian H hb] at h
    obtain ⟨-, hens, -⟩ := multistate_post_ok_inv solve S nroots hermitian H ens vs h
    rw [hens, List.map_take, map_insertionSort_val]

/-- Witness for `c4_filter_and_selection`: ground-state and multistate
selection at a concrete one-dimensional input. -/
theorem c4_witness :
    (∃ p ∈ validPairs (solveGen exSolver1 true exH1 exS1), (0 : ℚ) = p.val.1 ∧
      (fun _ : Fin 1 => (1 : ℚ)) = (fun i => (p.vec i).1) ∧
      ∀ q ∈ validPairs (solveGen exSolver1 true exH1 exS1), (0 : ℚ) ≤ q.val.1) ∧
    ([(0 : ℚ)] = (List.insertionSort (· ≤ ·)
      ((validPairs (solveGen exSolver1 true exH1 exS1)).map fun p => p.val.1)).take 1) := by
  have h := c4_filter_and_selection exSolver1 (fun _ _ => 0) (fun _ _ _ _ => 0)
    (fun _ _ _ _ => 0) (.full fun _ _ _ _ _ _ => 0) exS1 true exH1 rfl
  exact ⟨h.2.1 0 (fun _ => 1) rfl, h.2.2 1 [0] [fun _ => 1] rfl⟩

/-- C6 counterexample: on an input whose spectrum has NO eigenvalue surviving
the imaginary-part filter, `approximate_ground_state` does not fail through an
`assert` — it reaches `np.argmin` on an empty sequence, which raises
`ValueError` (there is no assert between the filter and the `argmin` in lines
80-90 of the source). The claim's "fail with an assertion ... one root for the
ground-state variant" is therefore false: the failure is a `ValueError`, a
different error class. -/
theorem c6_counterexample :
    approximate_ground_state (N := 1) (d := 1) exSolverImag (fun _ _ => 0)
      (fun _ _ _ _ => 0) (fun _ _ _ _ => 0) (.full fun _ _ _ _ _ _ => 0)
      exS1 true = .error .valueError ∧
    (Except.error EvErr.valueError : Except EvErr (ℚ × (Fin 1 → ℚ))) ≠
      .error .assertFail := by
  refine ⟨rfl, fun h => ?_⟩
  exact EvErr.noConfusion (Except.error.inj h)

/-- C6 amended: (i) both `approximate_ground_state` and
`approximate_multistate` fail with an assertion when `two_RDM`'s rank is none
of `{6, 5, 3, 2}`; (ii) when fewer eigenvalues survive the imaginary-part
filter than requested, `approximate_multistate` fails with an assertion, while
`approximate_ground_state` (needing one root) fails with the `ValueError`
raised by `np.argmin` on an empty sequence — not an assertion. In all cases no
`(energy, eigenvector)` result is returned. -/
theorem c6_error_handling_amended {N d : ℕ} :
    (∀ (solve : Solver N) (h1 : Fin d → Fin d → ℚ)
        (h2 : Fin d → Fin d → Fin d → Fin d → ℚ)
        (one_RDM : Fin N → Fin N → Fin d → Fin d → ℚ) (S : Fin N → Fin N → ℚ)
        (hermitian : Bool) (r : ℕ) (hr : ¬(r = 6 ∨ r = 5 ∨ r = 3 ∨ r = 2))
        (nroots : ℕ),
      approximate_ground_state solve h1 h2 one_RDM (.badRank r hr) S hermitian =
        .error .assertFail ∧
      approximate_multistate solve h1 h2 one_RDM (.badRank r hr) S nroots hermitian =
        .error .assertFail) ∧
    (∀ (solve : Solver N) (h1 : Fin d → Fin d → ℚ)
        (h2 : Fin d → Fin d → Fin d → Fin d → ℚ)
        (one_RDM : Fin N → Fin N → Fin d → Fin d → ℚ) (two_RDM : TwoRDMArr N d)
        (S : Fin N → Fin N → ℚ) (hermitian : Bool) (H : Fin N → Fin N → ℚ),
      buildH h1 h2 one_RDM two_RDM hermitian = .ok H →
      validPairs (solveGen solve hermitian H S) = [] →
      approximate_ground_state solve h1 h2 one_RDM two_RDM S hermitian =
        .error .valueError) ∧
    (∀ (solve : Solver N) (h1 : Fin d → Fin d → ℚ)
        (h2 : Fin d → Fin d → Fin d → Fin d → ℚ)
        (one_RDM : Fin N → Fin N → Fin d → Fin d → ℚ) (two_RDM : TwoRDMArr N d)
        (S : Fin N → Fin N → ℚ) (nroots : ℕ) (hermitian : Bool)
        (H : Fin N → Fin N → ℚ),
      buildH h1 h2 one_RDM two_RDM hermitian = .ok H →
      (validPairs (solveGen solve hermitian H S)).length < nroots →
      approximate_multistate solve h1 h2 one_RDM two_RDM S nroots hermitian =
        .error .assertFail) := by
  refine ⟨?_, ?_, ?_⟩
  · intro solve h1 h2 one_RDM S hermitian r hr nroots
    exact ⟨approximate_ground_state_err_eq solve h1 h2 one_RDM (.badRank r hr) S
        hermitian .assertFail rfl,
      approximate_multistate_err_eq solve h1 h2 one_RDM (.badRank r hr) S nroots
        hermitian .assertFail rfl⟩
  · intro solve h1 h2 one_RDM two_RDM S hermitian H hb hempty
    rw [approximate_ground_state_ok_eq solve h1 h2 one_RDM two_RDM S hermitian H hb]
    unfold ground_state_post
    rw [hempty]
    rfl
  · intro solve h1 h2 one_RDM two_RDM S nroots hermitian H hb hlen
    rw [approximate_multistate_ok_eq solve h1 h2 one_RDM two_RDM S nroots hermitian H hb]
    unfold multistate_post
    rw [if_neg (by omega)]

/-- Witness for `c6_error_handling_amended` at concrete inputs: an array of
rank 4, an empty surviving spectrum for the ground-state variant, and a
2-root request against a 1-element surviving spectrum. -/
theorem c6_witness :
    approximate_ground_state (N := 1) (d := 1) exSolver1 (fun _ _ => 0)
      (fun _ _ _ _ => 0) (fun _ _ _ _ => 0)
      (.badRank 4 (by decide)) exS1 true = .error .assertFail ∧
    approximate_ground_state (N := 1) (d := 1) exSolverImag (fun _ _ => 0)
      (fun _ _ _ _ => 0) (fun _ _ _ _ => 0) (.full fun _ _ _ _ _ _ => 0)
      exS1 true = .error .valueError ∧
    approximate_multistate (N := 1) (d := 1) exSolver1 (fun _ _ => 0)
      (fun _ _ _ _ => 0) (fun _ _ _ _ => 0) (.full fun _ _ _ _ _ _ => 0)
      exS1 2 true = .error .assertFail :=
  ⟨(c6_error_handling_amended.1 exSolver1 (fun _ _ => 0) (fun _ _ _ _ => 0)
      (fun _ _ _ _ => 0) exS1 true 4 (by decide) 1).1,
    c6_error_handling_amended.2.1 exSolverImag (fun _ _ => 0) (fun _ _ _ _ => 0)
      (fun _ _ _ _ => 0) (.full fun _ _ _ _ _ _ => 0) exS1 true exH1 rfl rfl,
    c6_error_handling_amended.2.2 exSolver1 (fun _ _ => 0) (fun _ _ _ _ => 0)
      (fun _ _ _ _ => 0) (.full fun _ _ _ _ _ _ => 0) exS1 2 true exH1 rfl
      (by norm_num [validPairs, solveGen, exSolver1, exS1, exH1])⟩

/-! ## Sum gymnastics for the exchange-symmetry packing -/

theorem cIdx_injective {d : ℕ} {p q : Fin d × Fin d} (h : cIdx p = cIdx q) :
    p = q := by
  unfold cIdx at h
  have hp2 : p.2.val < d := p.2.isLt
  have hq2 : q.2.val < d := q.2.isLt
  have h1 : p.1.val = q.1.val := by
    rcases Nat.lt_trichotomy p.1.val q.1.val with hlt | heq | hgt
    · exfalso
      have hcalc : p.1.val * d + p.2.val < q.1.val * d + q.2.val :=
        calc p.1.val * d + p.2.val < p.1.val * d + d := Nat.add_lt_add_left hp2 _
          _ = (p.1.val + 1) * d := by ring
          _ ≤ q.1.val * d := Nat.mul_le_mul_right d hlt
          _ ≤ q.1.val * d + q.2.val := Nat.le_add_right _ _
      exact absurd h (Nat.ne_of_lt hcalc)
    · exact heq
    · exfalso
      have hcalc : q.1.val * d + q.2.val < p.1.val * d + p.2.val :=
        calc q.1.val * d + q.2.val < q.1.val * d + d := Nat.add_lt_add_left hq2 _
          _ = (q.1.val + 1) * d := by ring
          _ ≤ p.1.val * d := Nat.mul_le_mul_right d hgt
          _ ≤ p.1.val * d + p.2.val := Nat.le_add_right _ _
      exact absurd h (Nat.ne_of_gt hcalc)
  have h2 : p.2.val = q.2.val := by
    rw [h1] at h
    exact Nat.add_left_cancel h
  obtain ⟨pa, pb⟩ := p
  obtain ⟨qa, qb⟩ := q
  simp only [Prod.mk.injEq]
  exact ⟨Fin.ext h1, Fin.ext h2⟩

theorem sum_exIdx_eq {d : ℕ} (f : (Fin d × Fin d) × (Fin d × Fin d) → ℚ) :
    (∑ q : ExIdx d, f q.val) =
      ∑ x : (Fin d × Fin d) × (Fin d × Fin d),
        if cIdx x.2 ≤ cIdx x.1 then f x else 0 := by
  rw [← Finset.sum_filter]
  exact (Finset.sum_subtype _ (by intro x; simp) f).symm

theorem sum4_eq_pairsum {d : ℕ} (g : Fin d → Fin d → Fin d → Fin d → ℚ) :
    (∑ x : (Fin d × Fin d) × (Fin d × Fin d), g x.1.1 x.1.2 x.2.1 x.2.2) =
      ∑ i, ∑ j, ∑ k, ∑ l, g i j k l := by
  simp only [Fintype.sum_prod_type]

theorem sum4_swap {d : ℕ} (g : Fin d → Fin d → Fin d → Fin d → ℚ) :
    (∑ i, ∑ j, ∑ k, ∑ l, g i j k l) = ∑ i, ∑ j, ∑ k, ∑ l, g j i l k := by
  rw [Finset.sum_comm]
  exact Finset.sum_congr rfl fun j _ => Finset.sum_congr rfl fun i _ => Finset.sum_comm

theorem sum_lt_swap_cancel {d : ℕ} (F : (Fin d × Fin d) × (Fin d × Fin d) → ℚ)
    (hsymm : ∀ x : (Fin d × Fin d) × (Fin d × Fin d), F (x.2, x.1) = F x) :
    (∑ x : (Fin d × Fin d) × (Fin d × Fin d),
        if cIdx x.2 < cIdx x.1 then F x else 0) =
      ∑ x : (Fin d × Fin d) × (Fin d × Fin d),
        if cIdx x.1 < cIdx x.2 then F x else 0 := by
  apply Fintype.sum_equiv (Equiv.prodComm _ _)
  intro x
  by_cases h : cIdx x.2 < cIdx x.1
  · rw [if_pos h, if_pos (by simpa using h), Equiv.prodComm_apply, Prod.swap]
    exact (hsymm x).symm
  · rw [if_neg h, if_neg (by simpa using h)]

/-- The central compression identity: contracting an exchange-symmetric
rank-4 tensor block with the exchange-symmetry-compressed two-electron
integrals (diagonal half-weight) equals one half of the direct 4-index
contraction, provided both tensors are symmetric under exchanging the two
composite orbital-index pairs. -/
theorem packedDot_compress_eq {d : ℕ}
    (t : Fin d → Fin d → Fin d → Fin d → ℚ)
    (h2 : Fin d → Fin d → Fin d → Fin d → ℚ)
    (ht : ∀ i j k l, t i j k l = t k l i j)
    (hh : ∀ i j k l, h2 i j k l = h2 k l i j) :
    packedDot (fun q : ExIdx d => t q.val.1.1 q.val.1.2 q.val.2.1 q.val.2.2)
        (compress_electron_exchange_symmetry h2 (1 / 2)) =
      (1 / 2) * ∑ i, ∑ j, ∑ k, ∑ l, t i j k l * h2 i j k l := by
  have hA : packedDot
      (fun q : ExIdx d => t q.val.1.1 q.val.1.2 q.val.2.1 q.val.2.2)
      (compress_electron_exchange_symmetry h2 (1 / 2)) =
      ∑ x : (Fin d × Fin d) × (Fin d × Fin d),
        if cIdx x.2 ≤ cIdx x.1 then
          t x.1.1 x.1.2 x.2.1 x.2.2 *
            ((if x.1 = x.2 then (1 : ℚ) / 2 else 1) * h2 x.1.1 x.1.2 x.2.1 x.2.2)
        else 0 :=
    sum_exIdx_eq (fun x => t x.1.1 x.1.2 x.2.1 x.2.2 *
      ((if x.1 = x.2 then (1 : ℚ) / 2 else 1) * h2 x.1.1 x.1.2 x.2.1 x.2.2))
  have hkey : ∀ x : (Fin d × Fin d) × (Fin d × Fin d),
      2 * (if cIdx x.2 ≤ cIdx x.1 then
          t x.1.1 x.1.2 x.2.1 x.2.2 *
            ((if x.1 = x.2 then (1 : ℚ) / 2 else 1) * h2 x.1.1 x.1.2 x.2.1 x.2.2)
        else 0) =
      t x.1.1 x.1.2 x.2.1 x.2.2 * h2 x.1.1 x.1.2 x.2.1 x.2.2 +
        ((if cIdx x.2 < cIdx x.1 then
            t x.1.1 x.1.2 x.2.1 x.2.2 * h2 x.1.1 x.1.2 x.2.1 x.2.2 else 0) -
          (if cIdx x.1 < cIdx x.2 then
            t x.1.1 x.1.2 x.2.1 x.2.2 * h2 x.1.1 x.1.2 x.2.1 x.2.2 else 0)) := by
    intro x
    rcases Nat.lt_trichotomy (cIdx x.2) (cIdx x.1) with hlt | heq | hgt
    · have hne : ¬x.1 = x.2 := fun hx => absurd (congrArg cIdx hx).symm (Nat.ne_of_lt hlt)
      rw [if_pos (Nat.le_of_lt hlt), if_neg hne, if_pos hlt,
        if_neg (show ¬cIdx x.1 < cIdx x.2 by omega)]
      ring
    · have hx : x.1 = x.2 := (cIdx_injective heq).symm
      rw [if_pos (Nat.le_of_eq heq), if_pos hx,
        if_neg (show ¬cIdx x.2 < cIdx x.1 by omega),
        if_neg (show ¬cIdx x.1 < cIdx x.2 by omega)]
      ring
    · rw [if_neg (show ¬cIdx x.2 ≤ cIdx x.1 by omega),
        if_neg (show ¬cIdx x.2 < cIdx x.1 by omega), if_pos hgt]
      ring
  have hdouble : 2 * (∑ x : (Fin d × Fin d) × (Fin d × Fin d),
      if cIdx x.2 ≤ cIdx x.1 then
        t x.1.1 x.1.2 x.2.1 x.2.2 *
          ((if x.1 = x.2 then (1 : ℚ) / 2 else 1) * h2 x.1.1 x.1.2 x.2.1 x.2.2)
      else 0) =
      ∑ x : (Fin d × Fin d) × (Fin d × Fin d),
        t x.1.1 x.1.2 x.2.1 x.2.2 * h2 x.1.1 x.1.2 x.2.1 x.2.2 := by
    rw [Finset.mul_sum]
    rw [Finset.sum_congr rfl fun x _ => hkey x]
    rw [Finset.sum_add_distrib, Finset.sum_sub_distrib]
    rw [sum_lt_swap_cancel (fun x => t x.1.1 x.1.2 x.2.1 x.2.2 *
      h2 x.1.1 x.1.2 x.2.1 x.2.2) (fun x => by
        simp only []
        rw [← ht x.2.1 x.2.2 x.1.1 x.1.2, ← hh x.2.1 x.2.2 x.1.1 x.1.2])]
    ring
  rw [hA]
  have := hdouble
  rw [sum4_eq_pairsum (fun i j k l => t i j k l * h2 i j k l)] at this
  linarith

theorem solveGen_true_eq {N : ℕ} (solve : Solver N) (H S : Fin N → Fin N → ℚ) :
    solveGen solve true H S = solve true (symmetrizeLower H) (symmetrizeLower S) :=
  rfl

theorem ground_state_post_lower_congr {N : ℕ} (solve : Solver N)
    (S H H' : Fin N → Fin N → ℚ)
    (hlow : symmetrizeLower H = symmetrizeLower H') :
    ground_state_post solve S true H = ground_state_post solve S true H' := by
  unfold ground_state_post
  rw [solveGen_true_eq, solveGen_true_eq, hlow]

theorem oneBodyH_symm {N d : ℕ} (one_RDM : Fin N → Fin N → Fin d → Fin d → ℚ)
    (h1 : Fin d → Fin d → ℚ) (hh1 : ∀ k l, h1 k l = h1 l k)
    (hdat1 : ∀ a b k l, one_RDM b a k l = one_RDM a b l k) (a b : Fin N) :
    oneBodyH one_RDM h1 b a = oneBodyH one_RDM h1 a b := by
  unfold oneBodyH
  calc (∑ k, ∑ l, one_RDM b a k l * h1 k l)
      = ∑ k, ∑ l, one_RDM a b l k * h1 k l :=
        Finset.sum_congr rfl fun k _ => Finset.sum_congr rfl fun l _ => by
          rw [hdat1]
    _ = ∑ k, ∑ l, one_RDM a b k l * h1 l k := Finset.sum_comm
    _ = ∑ k, ∑ l, one_RDM a b k l * h1 k l :=
        Finset.sum_congr rfl fun k _ => Finset.sum_congr rfl fun l _ => by
          rw [← hh1 k l]

theorem twoBodyFull_symm {N d : ℕ}
    (t6 : Fin N → Fin N → Fin d → Fin d → Fin d → Fin d → ℚ)
    (h2 : Fin d → Fin d → Fin d → Fin d → ℚ)
    (hh2a : ∀ i j k l, h2 i j k l = h2 j i k l)
    (hh2b : ∀ i j k l, h2 i j k l = h2 i j l k)
    (hdat2 : ∀ a b i j k l, t6 b a i j k l = t6 a b j i l k) (a b : Fin N) :
    twoBodyFull t6 h2 b a = twoBodyFull t6 h2 a b := by
  unfold twoBodyFull
  calc (∑ i, ∑ j, ∑ k, ∑ l, t6 b a i j k l * h2 i j k l)
      = ∑ i, ∑ j, ∑ k, ∑ l, t6 a b j i l k * h2 i j k l :=
        Finset.sum_congr rfl fun i _ => Finset.sum_congr rfl fun j _ =>
          Finset.sum_congr rfl fun k _ => Finset.sum_congr rfl fun l _ => by
            rw [hdat2]
    _ = ∑ i, ∑ j, ∑ k, ∑ l, t6 a b i j k l * h2 j i l k :=
        sum4_swap (fun i j k l => t6 a b j i l k * h2 i j k l)
    _ = ∑ i, ∑ j, ∑ k, ∑ l, t6 a b i j k l * h2 i j k l :=
        Finset.sum_congr rfl fun i _ => Finset.sum_congr rfl fun j _ =>
          Finset.sum_congr rfl fun k _ => Finset.sum_congr rfl fun l _ => by
            rw [hh2a j i l k, hh2b i j l k]

theorem trilAdd_lower_data {N d : ℕ} (h1 : Fin d → Fin d → ℚ)
    (h2 : Fin d → Fin d → Fin d → Fin d → ℚ)
    (one_RDM : Fin N → Fin N → Fin d → Fin d → ℚ)
    (t6 : Fin N → Fin N → Fin d → Fin d → Fin d → Fin d → ℚ)
    (t5 : TriIdx N → Fin d → Fin d → Fin d → Fin d → ℚ)
    (henc : ∀ (p : TriIdx N) i j k l, t5 p i j k l = t6 p.val.1 p.val.2 i j k l)
    (a b : Fin N) (hba : b ≤ a) :
    trilAdd (oneBodyH one_RDM h1)
        (fun p => (1 / 2) * ∑ i, ∑ j, ∑ k, ∑ l, t5 p i j k l * h2 i j k l) a b =
      oneBodyH one_RDM h1 a b + (1 / 2) * twoBodyFull t6 h2 a b := by
  have hsum : (∑ i, ∑ j, ∑ k, ∑ l, t5 ⟨(a, b), hba⟩ i j k l * h2 i j k l) =
      twoBodyFull t6 h2 a b := by
    unfold twoBodyFull
    exact Finset.sum_congr rfl fun i _ => Finset.sum_congr rfl fun j _ =>
      Finset.sum_congr rfl fun k _ => Finset.sum_congr rfl fun l _ => by
        rw [henc ⟨(a, b), hba⟩ i j k l]
  unfold trilAdd
  rw [dif_pos hba]
  show oneBodyH one_RDM h1 a b +
      (1 / 2) * (∑ i, ∑ j, ∑ k, ∑ l, t5 ⟨(a, b), hba⟩ i j k l * h2 i j k l) = _
  rw [hsum]

theorem trilAdd_lower_both {N d : ℕ} (h1 : Fin d → Fin d → ℚ)
    (h2 : Fin d → Fin d → Fin d → Fin d → ℚ)
    (one_RDM : Fin N → Fin N → Fin d → Fin d → ℚ)
    (t6 : Fin N → Fin N → Fin d → Fin d → Fin d → Fin d → ℚ)
    (t2 : TriIdx N → ExIdx d → ℚ)
    (henc : ∀ (p : TriIdx N) (q : ExIdx d),
      t2 p q = t6 p.val.1 p.val.2 q.val.1.1 q.val.1.2 q.val.2.1 q.val.2.2)
    (hexc : ∀ a b i j k l, t6 a b i j k l = t6 a b k l i j)
    (hh2c : ∀ i j k l, h2 i j k l = h2 k l i j)
    (a b : Fin N) (hba : b ≤ a) :
    trilAdd (oneBodyH one_RDM h1)
        (fun p => packedDot (t2 p) (compress_electron_exchange_symmetry h2 (1 / 2))) a b =
      oneBodyH one_RDM h1 a b + (1 / 2) * twoBodyFull t6 h2 a b := by
  have ht2 : t2 ⟨(a, b), hba⟩ =
      fun q : ExIdx d => t6 a b q.val.1.1 q.val.1.2 q.val.2.1 q.val.2.2 :=
    funext (henc ⟨(a, b), hba⟩)
  unfold trilAdd
  rw [dif_pos hba]
  show oneBodyH one_RDM h1 a b + packedDot (t2 ⟨(a, b), hba⟩)
      (compress_electron_exchange_symmetry h2 (1 / 2)) = _
  rw [ht2, packedDot_compress_eq (t6 a b) h2 (hexc a b) hh2c]
  rfl

/-- C1: for every `h1`, `one_RDM`, overlap `S`, hermitian flag and external
solver, the four supported storage shapes of the two-body t-RDM — full
6-index, data-symmetry-packed 5-index, exchange-symmetry-packed 3-index, and
doubly packed 2-index — encoding the same underlying logical tensor (the
encoding hypotheses `h5enc`/`h3enc`/`h2enc`, together with the permutational
symmetries of the logical tensor and of `h2` that the packings presuppose)
make `approximate_ground_state` return the same `(energy, eigenvector)`
result; in particular (first conjunct) the exchange-symmetry-compressed
contraction path — compressing `h2` with `diag_multiplier = 0.5` and taking
the dot product — equals the direct uncompressed 4-index tensordot
contribution `0.5 * tensordot(two_RDM, h2, axes=4)`. -/
theorem c1_two_rdm_shape_equivalence {N d : ℕ} (solve : Solver N)
    (h1 : Fin d → Fin d → ℚ) (h2 : Fin d → Fin d → Fin d → Fin d → ℚ)
    (one_RDM : Fin N → Fin N → Fin d → Fin d → ℚ) (S : Fin N → Fin N → ℚ)
    (t6 : Fin N → Fin N → Fin d → Fin d → Fin d → Fin d → ℚ)
    (t5 : TriIdx N → Fin d → Fin d → Fin d → Fin d → ℚ)
    (t3 : Fin N → Fin N → ExIdx d → ℚ)
    (t2 : TriIdx N → ExIdx d → ℚ)
    (hermitian : Bool)
    (h5enc : ∀ (p : TriIdx N) i j k l, t5 p i j k l = t6 p.val.1 p.val.2 i j k l)
    (h3enc : ∀ a b (q : ExIdx d),
      t3 a b q = t6 a b q.val.1.1 q.val.1.2 q.val.2.1 q.val.2.2)
    (h2enc : ∀ (p : TriIdx N) (q : ExIdx d),
      t2 p q = t6 p.val.1 p.val.2 q.val.1.1 q.val.1.2 q.val.2.1 q.val.2.2)
    (hh1 : ∀ k l, h1 k l = h1 l k)
    (hh2a : ∀ i j k l, h2 i j k l = h2 j i k l)
    (hh2b : ∀ i j k l, h2 i j k l = h2 i j l k)
    (hh2c : ∀ i j k l, h2 i j k l = h2 k l i j)
    (hexc : ∀ a b i j k l, t6 a b i j k l = t6 a b k l i j)
    (hdat1 : ∀ a b k l, one_RDM b a k l = one_RDM a b l k)
    (hdat2 : ∀ a b i j k l, t6 b a i j k l = t6 a b j i l k) :
    (∀ a b, packedDot (t3 a b) (compress_electron_exchange_symmetry h2 (1 / 2)) =
      (1 / 2) * twoBodyFull t6 h2 a b) ∧
    approximate_ground_state solve h1 h2 one_RDM (.dataPacked t5) S hermitian =
      approximate_ground_state solve h1 h2 one_RDM (.full t6) S hermitian ∧
    approximate_ground_state solve h1 h2 one_RDM (.exchangePacked t3) S hermitian =
      approximate_ground_state solve h1 h2 one_RDM (.full t6) S hermitian ∧
    approximate_ground_state solve h1 h2 one_RDM (.bothPacked t2) S hermitian =
      approximate_ground_state solve h1 h2 one_RDM (.full t6) S hermitian := by
  have hex : ∀ a b, packedDot (t3 a b)
      (compress_electron_exchange_symmetry h2 (1 / 2)) =
      (1 / 2) * twoBodyFull t6 h2 a b := by
    intro a b
    have h3 : t3 a b =
        fun q : ExIdx d => t6 a b q.val.1.1 q.val.1.2 q.val.2.1 q.val.2.2 :=
      funext (h3enc a b)
    rw [h3, packedDot_compress_eq (t6 a b) h2 (hexc a b) hh2c]
    rfl
  have hsymm6 : ∀ a b : Fin N,
      oneBodyH one_RDM h1 b a + (1 / 2) * twoBodyFull t6 h2 b a =
        oneBodyH one_RDM h1 a b + (1 / 2) * twoBodyFull t6 h2 a b := by
    intro a b
    rw [oneBodyH_symm one_RDM h1 hh1 hdat1 a b,
      twoBodyFull_symm t6 h2 hh2a hh2b hdat2 a b]
  have hmirror : ∀ extra : TriIdx N → ℚ,
      (∀ a b, (hba : b ≤ a) → trilAdd (oneBodyH one_RDM h1) extra a b =
        oneBodyH one_RDM h1 a b + (1 / 2) * twoBodyFull t6 h2 a b) →
      triuMirror (trilAdd (oneBodyH one_RDM h1) extra) =
        fun a b => oneBodyH one_RDM h1 a b + (1 / 2) * twoBodyFull t6 h2 a b := by
    intro extra hlow
    funext i j
    unfold triuMirror npconj
    by_cases hij : i ≤ j
    · rw [if_pos hij, hlow j i hij, hsymm6 i j]
    · rw [if_neg hij, hlow i j (le_of_lt (not_le.mp hij))]
  have hlowereq : ∀ extra : TriIdx N → ℚ,
      (∀ a b, (hba : b ≤ a) → trilAdd (oneBodyH one_RDM h1) extra a b =
        oneBodyH one_RDM h1 a b + (1 / 2) * twoBodyFull t6 h2 a b) →
      symmetrizeLower (trilAdd (oneBodyH one_RDM h1) extra) =
        symmetrizeLower
          (fun a b => oneBodyH one_RDM h1 a b + (1 / 2) * twoBodyFull t6 h2 a b) := by
    intro extra hlow
    funext i j
    unfold symmetrizeLower npconj
    by_cases hji : j ≤ i
    · rw [if_pos hji, if_pos hji, hlow i j hji]
    · rw [if_neg hji, if_neg hji, hlow j i (le_of_lt (not_le.mp hji))]
  have hlow5 : ∀ a b : Fin N, (hba : b ≤ a) →
      trilAdd (oneBodyH one_RDM h1)
        (fun p => (1 / 2) * ∑ i, ∑ j, ∑ k, ∑ l, t5 p i j k l * h2 i j k l) a b =
      oneBodyH one_RDM h1 a b + (1 / 2) * twoBodyFull t6 h2 a b :=
    fun a b hba => trilAdd_lower_data h1 h2 one_RDM t6 t5 h5enc a b hba
  have hlow2 : ∀ a b : Fin N, (hba : b ≤ a) →
      trilAdd (oneBodyH one_RDM h1)
        (fun p => packedDot (t2 p) (compress_electron_exchange_symmetry h2 (1 / 2))) a b =
      oneBodyH one_RDM h1 a b + (1 / 2) * twoBodyFull t6 h2 a b :=
    fun a b hba => trilAdd_lower_both h1 h2 one_RDM t6 t2 h2enc hexc hh2c a b hba
  refine ⟨hex, ?_, ?_, ?_⟩
  · cases hermitian with
    | false =>
      have hbuild : buildH h1 h2 one_RDM (.dataPacked t5) false =
          buildH h1 h2 one_RDM (.full t6) false := by
        show Except.ok (triuMirror (trilAdd (oneBodyH one_RDM h1)
            (fun p => (1 / 2) * ∑ i, ∑ j, ∑ k, ∑ l, t5 p i j k l * h2 i j k l))) =
          Except.ok fun a b =>
            oneBodyH one_RDM h1 a b + (1 / 2) * twoBodyFull t6 h2 a b
        exact congrArg Except.ok (hmirror _ hlow5)
      unfold approximate_ground_state
      rw [hbuild]
    | true =>
      rw [approximate_ground_state_ok_eq solve h1 h2 one_RDM (.dataPacked t5) S true
          (trilAdd (oneBodyH one_RDM h1)
            (fun p => (1 / 2) * ∑ i, ∑ j, ∑ k, ∑ l, t5 p i j k l * h2 i j k l)) rfl,
        approximate_ground_state_ok_eq solve h1 h2 one_RDM (.full t6) S true
          (fun a b => oneBodyH one_RDM h1 a b + (1 / 2) * twoBodyFull t6 h2 a b) rfl]
      exact ground_state_post_lower_congr solve S _ _ (hlowereq _ hlow5)
  · have hbuild : buildH h1 h2 one_RDM (.exchangePacked t3) hermitian =
        buildH h1 h2 one_RDM (.full t6) hermitian := by
      show Except.ok (fun a b => oneBodyH one_RDM h1 a b +
          packedDot (t3 a b) (compress_electron_exchange_symmetry h2 (1 / 2))) =
        Except.ok fun a b =>
          oneBodyH one_RDM h1 a b + (1 / 2) * twoBodyFull t6 h2 a b
      exact congrArg Except.ok (funext fun a => funext fun b => by rw [hex a b])
    unfold approximate_ground_state
    rw [hbuild]
  · cases hermitian with
    | false =>
      have hbuild : buildH h1 h2 one_RDM (.bothPacked t2) false =
          buildH h1 h2 one_RDM (.full t6) false := by
        show Except.ok (triuMirror (trilAdd (oneBodyH one_RDM h1)
            (fun p => packedDot (t2 p)
              (compress_electron_exchange_symmetry h2 (1 / 2))))) =
          Except.ok fun a b =>
            oneBodyH one_RDM h1 a b + (1 / 2) * twoBodyFull t6 h2 a b
        exact congrArg Except.ok (hmirror _ hlow2)
      unfold approximate_ground_state
      rw [hbuild]
    | true =>
      rw [approximate_ground_state_ok_eq solve h1 h2 one_RDM (.bothPacked t2) S true
          (trilAdd (oneBodyH one_RDM h1)
            (fun p => packedDot (t2 p)
              (compress_electron_exchange_symmetry h2 (1 / 2)))) rfl,
        approximate_ground_state_ok_eq solve h1 h2 one_RDM (.full t6) S true
          (fun a b => oneBodyH one_RDM h1 a b + (1 / 2) * twoBodyFull t6 h2 a b) rfl]
      exact ground_state_post_lower_congr solve S _ _ (hlowereq _ hlow2)

/-- Witness for `c1_two_rdm_shape_equivalence` at a concrete constant-tensor
instance with `Ntrn = Norb = 1`. -/
theorem c1_witness :
    (∀ a b : Fin 1, packedDot (fun _ : ExIdx 1 => (3 : ℚ))
        (compress_electron_exchange_symmetry (fun _ _ _ _ => (7 : ℚ)) (1 / 2)) =
      (1 / 2) * twoBodyFull (N := 1) (d := 1) (fun _ _ _ _ _ _ => (3 : ℚ))
        (fun _ _ _ _ => (7 : ℚ)) a b) ∧
    approximate_ground_state (N := 1) (d := 1) exSolver1 (fun _ _ => 5)
        (fun _ _ _ _ => 7) (fun _ _ _ _ => 2) (.dataPacked fun _ _ _ _ _ => 3)
        exS1 true =
      approximate_ground_state (N := 1) (d := 1) exSolver1 (fun _ _ => 5)
        (fun _ _ _ _ => 7) (fun _ _ _ _ => 2) (.full fun _ _ _ _ _ _ => 3)
        exS1 true ∧
    approximate_ground_state (N := 1) (d := 1) exSolver1 (fun _ _ => 5)
        (fun _ _ _ _ => 7) (fun _ _ _ _ => 2) (.exchangePacked fun _ _ _ => 3)
        exS1 true =
      approximate_ground_state (N := 1) (d := 1) exSolver1 (fun _ _ => 5)
        (fun _ _ _ _ => 7) (fun _ _ _ _ => 2) (.full fun _ _ _ _ _ _ => 3)
        exS1 true ∧
    approximate_ground_state (N := 1) (d := 1) exSolver1 (fun _ _ => 5)
        (fun _ _ _ _ => 7) (fun _ _ _ _ => 2) (.bothPacked fun _ _ => 3)
        exS1 true =
      approximate_ground_state (N := 1) (d := 1) exSolver1 (fun _ _ => 5)
        (fun _ _ _ _ => 7) (fun _ _ _ _ => 2) (.full fun _ _ _ _ _ _ => 3)
        exS1 true :=
  c1_two_rdm_shape_equivalence exSolver1 (fun _ _ => 5) (fun _ _ _ _ => 7)
    (fun _ _ _ _ => 2) exS1 (fun _ _ _ _ _ _ => 3) (fun _ _ _ _ _ => 3)
    (fun _ _ _ => 3) (fun _ _ => 3) true
    (by decide) (by decide) (by decide) (by decide) (by decide) (by decide)
    (by decide) (by decide) (by decide) (by decide)

theorem get_energy_with_grad_ok_eq {N d A : ℕ} (solve : Solver N)
    (h1 : Fin d → Fin d → ℚ) (h2 : Fin d → Fin d → Fin d → Fin d → ℚ)
    (one_RDM : Fin N → Fin N → Fin d → Fin d → ℚ)
    (two_RDM : Fin N → Fin N → Fin d → Fin d → Fin d → Fin d → ℚ)
    (S : Fin N → Fin N → ℚ) (hermitian : Bool)
    (h1_jac : Fin d → Fin d → Fin A → Fin 3 → ℚ)
    (h2_jac : Fin d → Fin d → Fin d → Fin d → Fin A → Fin 3 → ℚ)
    (energy_nuc : ℚ) (grad_nuc : Fin A → Fin 3 → ℚ) (en : ℚ) (vec : Fin N → ℚ)
    (hA : approximate_ground_state solve h1 h2 one_RDM (.full two_RDM) S hermitian =
      .ok (en, vec)) :
    get_energy_with_grad solve h1 h2 one_RDM two_RDM S hermitian h1_jac h2_jac
        energy_nuc grad_nuc =
      .ok (en + energy_nuc, fun a c =>
        ((∑ k, ∑ l, (∑ i, ∑ j, vec i * one_RDM i j k l * vec j) * h1_jac k l a c) +
          (1 / 2) * ∑ p, ∑ q, ∑ k, ∑ l,
            (∑ i, ∑ j, ∑ m, ∑ n, vec i * two_RDM i j k l m n * vec j) *
              h2_jac p q k l a c) + grad_nuc a c) := by
  unfold get_energy_with_grad
  rw [hA]

/-- C2: the energy returned by `get_energy_with_grad` is indeed the
`approximate_ground_state` energy plus the nuclear repulsion, and the one-body
gradient term follows the claimed contraction — but the two-body gradient term
does NOT compute the claimed Hellmann-Feynman contraction. The einsum on line
233 reads `"i,ijklmn,j->kl"`: its output subscript `kl` silently sums the
two-body t-RDM over its last two orbital axes, and the resulting rank-2 array
is then broadcast against axes 2, 3 of `h2_jac` while axes 0, 1 of `h2_jac`
are summed unweighted. At the concrete input below the code's gradient entry
is `1/2` while the Hellmann-Feynman value demanded by the claim (plus the
nuclear gradient) is `0`. -/
theorem c2_gradient_code_bug :
    get_energy_with_grad (N := 1) (d := 2) (A := 1) exSolver1 (fun _ _ => 0)
        (fun _ _ _ _ => 0) (fun _ _ _ _ => 0)
        (fun _ _ k l m n => if k = 0 ∧ l = 0 ∧ m = 0 ∧ n = 0 then 1 else 0)
        exS1 true (fun _ _ _ _ => 0)
        (fun p q k l _ _ => if p = 1 ∧ q = 1 ∧ k = 0 ∧ l = 0 then 1 else 0)
        0 (fun _ _ => 0) =
      .ok (0 + 0, fun _ _ => (0 + (1 / 2) * 1) + 0) ∧
    ((0 + (1 / 2) * 1 : ℚ) + 0 = 1 / 2) ∧
    hellmann_feynman_grad (N := 1) (d := 2) (A := 1) (fun _ _ _ _ => 0)
        (fun _ _ k l m n => if k = 0 ∧ l = 0 ∧ m = 0 ∧ n = 0 then 1 else 0)
        (fun _ => 1) (fun _ _ _ _ => 0)
        (fun p q k l _ _ => if p = 1 ∧ q = 1 ∧ k = 0 ∧ l = 0 then 1 else 0) 0 0 +
      (fun _ _ : Fin 1 => (0 : ℚ)) 0 0 = 0 ∧
    ((1 / 2 : ℚ) ≠ 0) := by
  refine ⟨?_, by norm_num, ?_, by norm_num⟩
  · rw [get_energy_with_grad_ok_eq exSolver1 (fun _ _ => 0) (fun _ _ _ _ => 0)
      (fun _ _ _ _ => 0)
      (fun _ _ k l m n => if k = 0 ∧ l = 0 ∧ m = 0 ∧ n = 0 then 1 else 0)
      exS1 true (fun _ _ _ _ => 0)
      (fun p q k l _ _ => if p = 1 ∧ q = 1 ∧ k = 0 ∧ l = 0 then 1 else 0)
      0 (fun _ _ => 0) 0 (fun _ => 1) rfl]
    refine congrArg Except.ok (Prod.ext rfl ?_)
    funext a c
    norm_num [Fin.sum_univ_two, Fin.sum_univ_one]
    decide
  · unfold hellmann_feynman_grad
    norm_num [Fin.sum_univ_two, Fin.sum_univ_one]
